import Mathlib

/-!
Verification of the split-ordered-list lock-free hash map
(`src/homework/src/hash_table/split_ordered_list.rs`).

The development is a sequential shallow embedding of the map.  The underlying
Harris list is represented by the globally sorted list of `(transformed key,
optional value)` entries; a cursor is the index of its current node in that
list.  The two compare-and-swap operations that the code exposes to the caller
without retrying (the data-node insertion CAS and the logical-delete CAS) are
modelled by a one-shot boolean oracle giving the outcome of the single attempt;
the sentinel-creation retry loop and the `find_harris` retry loop always
succeed in a sequential execution, so they need no oracle.  Machine `usize`
arithmetic wraps at `2 ^ 64`, which the embedding keeps explicit on the
`count`/`size` updates.  An operation result of `none` models a panic
(the `assert_valid_key` assertion, the `unwrap` in `lookup`, or dereferencing
a null cursor in `delete`).
-/

namespace SplitOrdered

/-- Accumulator-style bit reversal, mirroring the iteration of
`usize::reverse_bits`: each step moves the lowest remaining bit of `n`
onto the low end of `acc`. -/
def revAux : Nat → Nat → Nat → Nat
  | 0, _, acc => acc
  | w + 1, n, acc => revAux w (n / 2) (acc * 2 + n % 2)

/-- `usize::reverse_bits` on a 64-bit word. -/
def reverseBits64 (n : Nat) : Nat := revAux 64 n 0

/-- Wrap-around modulus of 64-bit machine integers. -/
def U64 : Nat := 2 ^ 64

/-- The loop of `get_parent` in `lookup_bucket`: repeatedly right-shift
`parent` (initially `size`) until it is at most `my_bucket`.  A `usize` is
64 bits wide, so the Rust loop always breaks within 64 shifts (after 64
shifts the word is `0 ≤ my_bucket`); `fuel` counts the remaining shifts and
`get_parent` passes 64, which makes the recursion structural. -/
def get_parent_go (my_bucket : Nat) : Nat → Nat → Nat
  | 0, parent => parent / 2
  | fuel + 1, parent =>
    if parent / 2 ≤ my_bucket then parent / 2
    else get_parent_go my_bucket fuel (parent / 2)

/-- `get_parent` from `lookup_bucket`: the parent bucket index is
`my_bucket` minus the first right-shift of `size` that is `≤ my_bucket`. -/
def get_parent (my_bucket size : Nat) : Nat :=
  my_bucket - get_parent_go my_bucket 64 size

/-- A node of the shared list: transformed key and optional value
(`none` on sentinel nodes, `some` on data nodes). -/
abbrev Entry (V : Type) := Nat × Option V

/-- The keys of a list of entries. -/
def keysOf {V : Type} (l : List (Entry V)) : List Nat := l.map Prod.fst

/-- Index of the first entry whose key is `≥ k` (the length if none is). -/
def lowerBound {V : Type} (k : Nat) : List (Entry V) → Nat
  | [] => 0
  | e :: rest => if k ≤ e.1 then 0 else lowerBound k rest + 1

/-- Harris-style search starting from cursor position `c`: the first
position `≥ c` whose key is `≥ k`. -/
def searchFrom {V : Type} (k c : Nat) (l : List (Entry V)) : Nat :=
  c + lowerBound k (l.drop c)

/-- Whether the search stopped exactly on key `k`. -/
def foundAt {V : Type} (k pos : Nat) (l : List (Entry V)) : Bool :=
  match l.get? pos with
  | some e => e.1 == k
  | none => false

/-- Insertion of a node at a cursor position. -/
def insertAt {V : Type} (p : Nat) (x : Entry V) (l : List (Entry V)) : List (Entry V) :=
  l.take p ++ x :: l.drop p

/-- Removal (logical deletion) of the node at a cursor position. -/
def eraseAt {V : Type} (p : Nat) (l : List (Entry V)) : List (Entry V) :=
  l.take p ++ l.drop (p + 1)

/-- Position of the first entry carrying key `k`; used to turn a stored
bucket pointer back into a cursor. -/
def idxOfKey {V : Type} (k : Nat) : List (Entry V) → Nat
  | [] => 0
  | e :: rest => if e.1 == k then 0 else idxOfKey k rest + 1

/-- The state of a `SplitOrderedList<V>`: the shared sorted list, the set of
materialized bucket indices, and the `size` and `count` counters. -/
structure MapState (V : Type) where
  list : List (Entry V)
  buckets : List Nat
  size : Nat
  count : Nat
deriving DecidableEq

/-- `SplitOrderedList::default()`: empty list, no buckets, `size = 2`,
`count = 0`. -/
def initState (V : Type) : MapState V := ⟨[], [], 2, 0⟩

/-- `SplitOrderedList::LOAD_FACTOR`. -/
def LOAD_FACTOR : Nat := 2

/-- The transformed key of a data node: `key.reverse_bits() | 1`. -/
def tKey (key : Nat) : Nat := Nat.lor (reverseBits64 key) 1

/-- The find-or-insert loop of `lookup_bucket` (lines 75–88 of the source):
from checkpoint cursor `c`, search for the sentinel key `sk`; if found, stop
there; otherwise insert a new `(sk, none)` node at the search position.  In a
sequential execution the `find_harris` and the insertion CAS succeed on the
first attempt, so the retry loop runs exactly once. -/
def sentinel_phase {V : Type} (sk c : Nat) (st' : MapState V) : Nat × MapState V :=
  let pos := searchFrom sk c st'.list
  if foundAt sk pos st'.list then (pos, st')
  else (pos, { st' with list := insertAt pos (sk, none) st'.list })

/-- `lookup_bucket`: return a cursor at bucket `index`'s sentinel,
materializing it (and, recursively, buckets along the parent chain) when
absent; the final `buckets` update models the release store of the sentinel
pointer.  The Rust recursion strictly decreases the bucket index whenever
`size` is a power of two greater than `index`, so its depth is bounded by
`index`; `fuel` makes that bound explicit (`find` supplies `index + 1`). -/
def lookup_bucket {V : Type} (fuel : Nat) (size index : Nat) (st : MapState V) :
    Nat × MapState V :=
  match fuel with
  | 0 => (0, st)
  | fuel + 1 =>
    if index ∈ st.buckets then
      (idxOfKey (reverseBits64 index) st.list, st)
    else
      let parent := get_parent index size
      let start := if parent = 0 then (0, st) else lookup_bucket fuel size parent st
      let r := sentinel_phase (reverseBits64 index) start.1 start.2
      (r.1, { r.2 with buckets := index :: r.2.buckets })

/-- `find`: snapshot `size`, resolve the bucket `key % size`, then search for
the transformed key `key.reverse_bits() | 1` from the bucket's cursor.
Returns `(size, found, cursor position, state)`. -/
def find {V : Type} (key : Nat) (st : MapState V) :
    Nat × Bool × Nat × MapState V :=
  let size := st.size
  let bkt := key % size
  let r := lookup_bucket (bkt + 1) size bkt st
  let st' := r.2
  let pos := searchFrom (tKey key) r.1 st'.list
  (size, foundAt (tKey key) pos st'.list, pos, st')

/-- `lookup`: `none` models a panic (the key assertion, or the `unwrap` on a
cursor that is not at a node). -/
def lookup {V : Type} (key : Nat) (st : MapState V) :
    Option (Option V × MapState V) :=
  if key < 2 ^ 63 then
    let r := find key st
    let found := r.2.1
    let pos := r.2.2.1
    let st' := r.2.2.2
    if found then
      match st'.list.get? pos with
      | some e => some (e.2, st')
      | none => none
    else
      some (none, st')
  else none

/-- `insert` with the outcome of its single data-node CAS attempt given by
`casOk`.  On a failed CAS the unconsumed value comes back in `Except.error`,
exactly as the found case returns it. -/
def insert {V : Type} (key : Nat) (v : V) (casOk : Bool) (st : MapState V) :
    Option (Except V Unit × MapState V) :=
  if key < 2 ^ 63 then
    let r := find key st
    let size := r.1
    let found := r.2.1
    let pos := r.2.2.1
    let st' := r.2.2.2
    if found then
      some (Except.error v, st')
    else if casOk then
      let l2 := insertAt pos (tKey key, some v) st'.list
      let cnt := (st'.count + 1) % U64
      let sz :=
        if (size * LOAD_FACTOR) % U64 < cnt then
          if st'.size = size then (size * 2) % U64 else st'.size
        else st'.size
      some (Except.ok (), { list := l2, buckets := st'.buckets, size := sz, count := cnt })
    else
      some (Except.error v, st')
  else none

/-- `delete` with the outcome of the logical-delete CAS given by `delOk`.
A conflicting delete (`delOk = false`) leaves the state untouched and fails
with `Except.error ()`, the same signal as the not-found case.  Deleting a
node whose value is `none` (a sentinel; unreachable in well-formed states)
unlinks it but falls through to the error branch without touching `count`. -/
def delete {V : Type} (key : Nat) (delOk : Bool) (st : MapState V) :
    Option (Except Unit V × MapState V) :=
  if key < 2 ^ 63 then
    let r := find key st
    let found := r.2.1
    let pos := r.2.2.1
    let st' := r.2.2.2
    if found = false then
      some (Except.error (), st')
    else if delOk then
      match st'.list.get? pos with
      | some e =>
        let st2 : MapState V :=
          { st' with list := eraseAt pos st'.list }
        match e.2 with
        | some v => some (Except.ok v, { st2 with count := (st2.count + (U64 - 1)) % U64 })
        | none => some (Except.error (), st2)
      | none => none
    else
      some (Except.error (), st')
  else none

/-- The data (odd transformed key) entries of the shared list: these are the
map's contents; sentinel nodes have even keys. -/
def dataEntries {V : Type} (l : List (Entry V)) : List (Entry V) :=
  l.filter (fun e => e.1 % 2 == 1)

/-- Number of live data entries. -/
def countData {V : Type} (l : List (Entry V)) : Nat := (dataEntries l).length

/-- The shared list is strictly sorted by transformed key. -/
def sortedP {V : Type} (l : List (Entry V)) : Prop :=
  l.Pairwise (fun a b => a.1 < b.1)

/-- Data nodes (odd key) carry a value, sentinel nodes (even key) carry
`none`. -/
def parityOK {V : Type} (l : List (Entry V)) : Prop :=
  ∀ e ∈ l, (e.1 % 2 = 1 → e.2.isSome = true) ∧ (e.1 % 2 = 0 → e.2 = none)

/-- All transformed keys fit in a 64-bit word. -/
def keysBound {V : Type} (l : List (Entry V)) : Prop :=
  ∀ e ∈ l, e.1 < U64

/-- Every materialized bucket index is a valid bucket (below `2 ^ 63`, hence
its sentinel key is even) and its sentinel is present in the shared list. -/
def bucketsOK {V : Type} (st : MapState V) : Prop :=
  ∀ i ∈ st.buckets, i < 2 ^ 63 ∧ reverseBits64 i ∈ keysOf st.list

/-- The state invariant: the list is sorted and well-typed, `count` counts the
data entries, and `size` is a power of two between `2` and `2 ^ 62`. -/
def Inv {V : Type} (st : MapState V) : Prop :=
  sortedP st.list ∧ parityOK st.list ∧ keysBound st.list ∧ bucketsOK st ∧
    st.count = countData st.list ∧ ∃ s, 1 ≤ s ∧ s ≤ 62 ∧ st.size = 2 ^ s

/-- The value held by the map at a user key: the value of the (unique) list
entry whose key is the transformed key. -/
def liveValue {V : Type} (key : Nat) (l : List (Entry V)) : Option V :=
  match l.find? (fun e => e.1 == tKey key) with
  | some e => e.2
  | none => none

/-- `st'` extends `st`: the counters are untouched, the list is sorted and
well-typed, the data contents are identical, and nodes and buckets are only
added.  This is the effect of bucket materialization on the state. -/
def Extends {V : Type} (st st' : MapState V) : Prop :=
  st'.size = st.size ∧ st'.count = st.count ∧
  sortedP st'.list ∧ parityOK st'.list ∧ keysBound st'.list ∧ bucketsOK st' ∧
  dataEntries st'.list = dataEntries st.list ∧
  (∀ e ∈ st.list, e ∈ st'.list) ∧
  (∀ i ∈ st.buckets, i ∈ st'.buckets)

/-- States reachable from `initState` by any sequence of non-panicking public
operations, with arbitrary CAS outcomes. -/
inductive Reachable (V : Type) : MapState V → Prop where
  | init : Reachable V (initState V)
  | lookupStep {st st' : MapState V} (key : Nat) (r : Option V) :
      Reachable V st → lookup key st = some (r, st') → Reachable V st'
  | insertStep {st st' : MapState V} (key : Nat) (v : V) (casOk : Bool)
      (r : Except V Unit) :
      Reachable V st → insert key v casOk st = some (r, st') → Reachable V st'
  | deleteStep {st st' : MapState V} (key : Nat) (delOk : Bool)
      (r : Except Unit V) :
      Reachable V st → delete key delOk st = some (r, st') → Reachable V st'

/-- First step of the C4 round trip: `insert(5, "a")` on a fresh map. -/
def c4_r1 : Option (Except String Unit × MapState String) :=
  insert 5 "a" true (initState String)

/-- State after `insert(5, "a")`. -/
def c4_st1 : MapState String := (c4_r1.map Prod.snd).getD (initState String)

/-- Second step: `delete(5)`. -/
def c4_r2 : Option (Except Unit String × MapState String) := delete 5 true c4_st1

/-- State after `delete(5)`. -/
def c4_st2 : MapState String := (c4_r2.map Prod.snd).getD c4_st1

/-- Third step: `lookup(5)`. -/
def c4_r3 : Option (Option String × MapState String) := lookup 5 c4_st2

/-- State after `lookup(5)`. -/
def c4_st3 : MapState String := (c4_r3.map Prod.snd).getD c4_st2

/-- Fourth step: a second `delete(5)`. -/
def c4_r4 : Option (Except Unit String × MapState String) := delete 5 true c4_st3

/-! ### Arithmetic facts about `reverseBits64` -/

theorem revAux_zero_n : ∀ w, revAux w 0 0 = 0
  | 0 => rfl
  | w + 1 => by simpa [revAux] using revAux_zero_n w

theorem revAux_acc : ∀ w n a : Nat, revAux w n a = a * 2 ^ w + revAux w n 0
  | 0, n, a => by simp [revAux]
  | w + 1, n, a => by
    show revAux w (n / 2) (a * 2 + n % 2)
        = a * 2 ^ (w + 1) + revAux w (n / 2) (0 * 2 + n % 2)
    rw [revAux_acc w (n / 2) (a * 2 + n % 2), revAux_acc w (n / 2) (0 * 2 + n % 2)]
    ring

theorem revAux_lt : ∀ w n : Nat, revAux w n 0 < 2 ^ w
  | 0, n => by simp [revAux]
  | w + 1, n => by
    show revAux w (n / 2) (0 * 2 + n % 2) < 2 ^ (w + 1)
    rw [revAux_acc]
    have h1 : n % 2 ≤ 1 := by omega
    have h2 := revAux_lt w (n / 2)
    have h3 : (0 * 2 + n % 2) * 2 ^ w ≤ 1 * 2 ^ w := by
      apply Nat.mul_le_mul_right
      omega
    have h4 : (2 : Nat) ^ (w + 1) = 2 ^ w + 2 ^ w := by ring
    omega

theorem revAux_split : ∀ s w n : Nat,
    revAux (s + w) n 0 = revAux s n 0 * 2 ^ w + revAux w (n / 2 ^ s) 0
  | 0, w, n => by simp [revAux]
  | s + 1, w, n => by
    have hadd : s + 1 + w = (s + w) + 1 := by omega
    rw [hadd]
    show revAux (s + w) (n / 2) (0 * 2 + n % 2)
        = revAux (s + 1) n 0 * 2 ^ w + revAux w (n / 2 ^ (s + 1)) 0
    rw [show revAux (s + 1) n 0 = revAux s (n / 2) (0 * 2 + n % 2) from rfl]
    rw [revAux_acc (s + w) (n / 2) (0 * 2 + n % 2), revAux_split s w (n / 2),
      revAux_acc s (n / 2) (0 * 2 + n % 2)]
    have hdiv : n / 2 / 2 ^ s = n / 2 ^ (s + 1) := by
      rw [Nat.div_div_eq_div_mul]
      congr 1
      ring
    rw [hdiv]
    ring

theorem revAux_mod : ∀ s n : Nat, revAux s n 0 = revAux s (n % 2 ^ s) 0
  | 0, n => rfl
  | s + 1, n => by
    show revAux s (n / 2) (0 * 2 + n % 2)
        = revAux s (n % 2 ^ (s + 1) / 2) (0 * 2 + n % 2 ^ (s + 1) % 2)
    have h1 : n % 2 ^ (s + 1) % 2 = n % 2 :=
      Nat.mod_mod_of_dvd n (dvd_pow_self 2 (Nat.succ_ne_zero s))
    have h2 : n % 2 ^ (s + 1) / 2 % 2 ^ s = n / 2 % 2 ^ s := by
      rw [show (2 : Nat) ^ (s + 1) = 2 * 2 ^ s by ring,
        Nat.mod_mul_right_div_self n 2 (2 ^ s)]
      exact Nat.mod_mod_of_dvd _ dvd_rfl
    rw [h1]
    rw [revAux_acc s (n / 2) (0 * 2 + n % 2),
      revAux_acc s (n % 2 ^ (s + 1) / 2) (0 * 2 + n % 2)]
    rw [revAux_mod s (n / 2), revAux_mod s (n % 2 ^ (s + 1) / 2), h2]

theorem reverseBits64_lt (n : Nat) : reverseBits64 n < U64 := by
  unfold reverseBits64 U64
  exact revAux_lt 64 n

theorem reverseBits64_mod_two (n : Nat) (h : n < 2 ^ 63) : reverseBits64 n % 2 = 0 := by
  unfold reverseBits64
  have h1 := revAux_split 63 1 n
  rw [Nat.div_eq_of_lt h] at h1
  rw [show revAux 1 0 0 = 0 from rfl, pow_one] at h1
  rw [show (63 : Nat) + 1 = 64 from rfl] at h1
  rw [h1]
  omega

theorem reverseBits64_le_mod (s n : Nat) (hs : s ≤ 64) :
    reverseBits64 (n % 2 ^ s) ≤ reverseBits64 n := by
  unfold reverseBits64
  have h64 : s + (64 - s) = 64 := by omega
  have hl := revAux_split s (64 - s) n
  rw [h64] at hl
  have hm := revAux_split s (64 - s) (n % 2 ^ s)
  rw [h64] at hm
  have h3 : n % 2 ^ s / 2 ^ s = 0 :=
    Nat.div_eq_of_lt (Nat.mod_lt _ (Nat.two_pow_pos s))
  rw [h3, revAux_zero_n, ← revAux_mod] at hm
  rw [hl, hm]
  omega

theorem reverseBits64_add_pow (a j : Nat) (ha : a < 2 ^ j) (hj : j ≤ 63) :
    reverseBits64 (a + 2 ^ j) = reverseBits64 a + 2 ^ (63 - j) := by
  unfold reverseBits64
  have hpow : (2 : Nat) ^ (j + 1) = 2 ^ j + 2 ^ j := by ring
  have hlt : a + 2 ^ j < 2 ^ (j + 1) := by omega
  have ha' : a < 2 ^ (j + 1) := by omega
  have h64 : (j + 1) + (63 - j) = 64 := by omega
  have key : ∀ x : Nat, x < 2 ^ (j + 1) →
      revAux 64 x 0 = revAux (j + 1) x 0 * 2 ^ (63 - j) := by
    intro x hx
    have h2 := revAux_split (j + 1) (63 - j) x
    rw [h64] at h2
    rw [Nat.div_eq_of_lt hx, revAux_zero_n] at h2
    simpa using h2
  have key2 : ∀ y : Nat, revAux (j + 1) y 0 = revAux j y 0 * 2 + y / 2 ^ j % 2 := by
    intro y
    have h2 := revAux_split j 1 y
    have h3 : revAux 1 (y / 2 ^ j) 0 = y / 2 ^ j % 2 := by
      show revAux 0 (y / 2 ^ j / 2) (0 * 2 + y / 2 ^ j % 2) = y / 2 ^ j % 2
      simp [revAux]
    rw [h3, pow_one] at h2
    exact h2
  rw [key _ hlt, key _ ha', key2, key2]
  have h5 : (a + 2 ^ j) / 2 ^ j = 1 := by
    rw [Nat.add_div_right _ (Nat.two_pow_pos j), Nat.div_eq_of_lt ha]
  have h6 : a / 2 ^ j = 0 := Nat.div_eq_of_lt ha
  have h7 : revAux j (a + 2 ^ j) 0 = revAux j a 0 := by
    rw [revAux_mod j (a + 2 ^ j), Nat.add_mod_right, Nat.mod_eq_of_lt ha]
  rw [h5, h6, h7]
  ring

theorem lor_one_of_even (n : Nat) (h : n % 2 = 0) : Nat.lor n 1 = n + 1 := by
  apply Nat.eq_of_testBit_eq
  intro i
  rw [show Nat.lor n 1 = n ||| 1 from rfl, Nat.testBit_lor]
  cases i with
  | zero =>
    rw [Nat.testBit_zero, Nat.testBit_zero, Nat.testBit_zero]
    have h1 : (n + 1) % 2 = 1 := by omega
    rw [h1]
    simp [h]
  | succ j =>
    rw [Nat.testBit_succ, Nat.testBit_succ, Nat.testBit_succ]
    have h1 : (n + 1) / 2 = n / 2 := by omega
    have h2 : (1 : Nat) / 2 = 0 := by norm_num
    rw [h1, h2]
    simp [Nat.zero_testBit]

theorem tKey_eq (key : Nat) (h : key < 2 ^ 63) :
    tKey key = reverseBits64 key + 1 := by
  unfold tKey
  exact lor_one_of_even _ (reverseBits64_mod_two key h)

theorem tKey_odd (key : Nat) (h : key < 2 ^ 63) : tKey key % 2 = 1 := by
  rw [tKey_eq key h]
  have := reverseBits64_mod_two key h
  omega

theorem tKey_lt (key : Nat) (h : key < 2 ^ 63) : tKey key < U64 := by
  rw [tKey_eq key h]
  have h1 := reverseBits64_lt key
  have h2 := reverseBits64_mod_two key h
  unfold U64 at *
  omega

theorem sentinel_le_tKey (s key : Nat) (hs : s ≤ 64) (hk : key < 2 ^ 63) :
    reverseBits64 (key % 2 ^ s) ≤ tKey key := by
  have h1 := reverseBits64_le_mod s key hs
  rw [tKey_eq key hk]
  omega

/-! ### Facts about `get_parent` -/

theorem get_parent_go_le (b : Nat) :
    ∀ fuel parent : Nat, parent < 2 ^ fuel → get_parent_go b fuel parent ≤ b := by
  intro fuel
  induction fuel with
  | zero =>
    intro parent hp
    have : parent = 0 := by simpa using hp
    subst this
    simp [get_parent_go]
  | succ f ih =>
    intro parent hp
    show (if parent / 2 ≤ b then parent / 2 else get_parent_go b f (parent / 2)) ≤ b
    by_cases h : parent / 2 ≤ b
    · rw [if_pos h]; exact h
    · rw [if_neg h]
      apply ih
      have : (2 : Nat) ^ (f + 1) = 2 ^ f + 2 ^ f := by ring
      omega

theorem get_parent_go_pos (b : Nat) :
    ∀ fuel parent : Nat, 1 ≤ b → 2 ≤ parent → parent < 2 ^ fuel →
      1 ≤ get_parent_go b fuel parent := by
  intro fuel
  induction fuel with
  | zero =>
    intro parent _ hp hlt
    have : (2 : Nat) ^ 0 = 1 := by norm_num
    omega
  | succ f ih =>
    intro parent hb hp hlt
    show 1 ≤ if parent / 2 ≤ b then parent / 2 else get_parent_go b f (parent / 2)
    by_cases h : parent / 2 ≤ b
    · rw [if_pos h]; omega
    · rw [if_neg h]
      apply ih _ hb (by omega)
      have : (2 : Nat) ^ (f + 1) = 2 ^ f + 2 ^ f := by ring
      omega

theorem get_parent_go_pow (i : Nat) (hi : 0 < i) :
    ∀ s fuel : Nat, s ≤ fuel → i < 2 ^ s →
      get_parent_go i fuel (2 ^ s) = 2 ^ Nat.log 2 i := by
  intro s
  induction s with
  | zero =>
    intro fuel _ h
    omega
  | succ s ih =>
    intro fuel hsf h
    obtain ⟨f, rfl⟩ : ∃ f, fuel = f + 1 := ⟨fuel - 1, by omega⟩
    show (if 2 ^ (s + 1) / 2 ≤ i then 2 ^ (s + 1) / 2
          else get_parent_go i f (2 ^ (s + 1) / 2)) = 2 ^ Nat.log 2 i
    have hdiv : 2 ^ (s + 1) / 2 = 2 ^ s := by
      rw [pow_succ]
      exact Nat.mul_div_cancel _ (by norm_num)
    rw [hdiv]
    by_cases hle : 2 ^ s ≤ i
    · rw [if_pos hle, Nat.log_eq_of_pow_le_of_lt_pow hle h]
    · rw [if_neg hle]
      exact ih f (by omega) (by omega)

theorem get_parent_zero (size : Nat) : get_parent 0 size = 0 := by
  unfold get_parent
  omega

theorem get_parent_pow_eq (s i : Nat) (h0 : 0 < i) (h1 : i < 2 ^ s) (hs : s ≤ 64) :
    get_parent i (2 ^ s) = i - 2 ^ Nat.log 2 i := by
  unfold get_parent
  rw [get_parent_go_pow i h0 s 64 hs h1]

theorem get_parent_lt (s i : Nat) (h0 : 0 < i) (h1 : i < 2 ^ s) (hs : s ≤ 64) :
    get_parent i (2 ^ s) < i := by
  rw [get_parent_pow_eq s i h0 h1 hs]
  have h2 := Nat.pow_log_le_self 2 (by omega : i ≠ 0)
  have h3 := Nat.two_pow_pos (Nat.log 2 i)
  omega

theorem get_parent_decomp (s i : Nat) (h0 : 0 < i) (h1 : i < 2 ^ s) (hs : s ≤ 64) :
    get_parent i (2 ^ s) + 2 ^ Nat.log 2 i = i ∧
      get_parent i (2 ^ s) < 2 ^ Nat.log 2 i := by
  rw [get_parent_pow_eq s i h0 h1 hs]
  have h2 := Nat.pow_log_le_self 2 (by omega : i ≠ 0)
  have h3 := Nat.lt_pow_succ_log_self (by norm_num : 1 < 2) i
  rw [Nat.succ_eq_add_one] at h3
  have h4 : (2 : Nat) ^ (Nat.log 2 i + 1) = 2 ^ Nat.log 2 i + 2 ^ Nat.log 2 i := by ring
  omega

/-! ### Facts about the list primitives -/

section ListFacts

variable {V : Type}

theorem mem_keysOf {l : List (Entry V)} {kk : Nat} :
    kk ∈ keysOf l ↔ ∃ e ∈ l, e.1 = kk := by
  unfold keysOf
  exact List.mem_map

theorem lowerBound_le_length (k : Nat) :
    ∀ l : List (Entry V), lowerBound k l ≤ l.length
  | [] => by simp [lowerBound]
  | e :: rest => by
    unfold lowerBound
    by_cases h : k ≤ e.1
    · simp [h]
    · simp only [if_neg h, List.length_cons]
      have := lowerBound_le_length k rest
      omega

theorem lowerBound_lt_key (k : Nat) :
    ∀ (l : List (Entry V)) (i : Nat) (e : Entry V),
      i < lowerBound k l → l.get? i = some e → e.1 < k
  | [], i, e => by simp [lowerBound]
  | e' :: rest, i, e => by
    intro hi hg
    unfold lowerBound at hi
    by_cases h : k ≤ e'.1
    · rw [if_pos h] at hi
      omega
    · rw [if_neg h] at hi
      match i with
      | 0 =>
        simp only [List.get?] at hg
        have he := Option.some.inj hg
        subst he
        omega
      | i + 1 =>
        simp only [List.get?] at hg
        exact lowerBound_lt_key k rest i e (by omega) hg

theorem lowerBound_ge_key (k : Nat) :
    ∀ (l : List (Entry V)) (e : Entry V),
      l.get? (lowerBound k l) = some e → k ≤ e.1
  | [], e => by simp [lowerBound]
  | e' :: rest, e => by
    intro hg
    unfold lowerBound at hg
    by_cases h : k ≤ e'.1
    · rw [if_pos h] at hg
      simp only [List.get?] at hg
      have he := Option.some.inj hg
      subst he
      exact h
    · rw [if_neg h] at hg
      simp only [List.get?] at hg
      exact lowerBound_ge_key k rest e hg

theorem searchFrom_start_le (k c : Nat) (l : List (Entry V)) :
    c ≤ searchFrom k c l :=
  Nat.le_add_right c _

theorem searchFrom_le_length (k c : Nat) (l : List (Entry V)) (hc : c ≤ l.length) :
    searchFrom k c l ≤ l.length := by
  unfold searchFrom
  have h1 := lowerBound_le_length k (l.drop c)
  rw [List.length_drop] at h1
  omega

theorem searchFrom_lt_key (k c : Nat) (l : List (Entry V)) (i : Nat) (e : Entry V)
    (hci : c ≤ i) (hi : i < searchFrom k c l) (hg : l.get? i = some e) :
    e.1 < k := by
  unfold searchFrom at hi
  apply lowerBound_lt_key k (l.drop c) (i - c) e (by omega)
  rw [List.get?_drop, show c + (i - c) = i by omega]
  exact hg

theorem searchFrom_ge_key (k c : Nat) (l : List (Entry V)) (e : Entry V)
    (hg : l.get? (searchFrom k c l) = some e) : k ≤ e.1 := by
  apply lowerBound_ge_key k (l.drop c) e
  rw [List.get?_drop]
  exact hg

theorem foundAt_iff (k pos : Nat) (l : List (Entry V)) :
    foundAt k pos l = true ↔ ∃ e : Entry V, l.get? pos = some e ∧ e.1 = k := by
  unfold foundAt
  cases hg : l.get? pos with
  | none => simp
  | some e => simp [beq_iff_eq]

theorem sortedP_get_lt (l : List (Entry V)) (hs : sortedP l) (i j : Nat)
    (ei ej : Entry V) (hij : i < j)
    (hgi : l.get? i = some ei) (hgj : l.get? j = some ej) : ei.1 < ej.1 := by
  have h := List.pairwise_iff_get.mp hs
  obtain ⟨hi, hei⟩ := List.get?_eq_some.mp hgi
  obtain ⟨hj, hej⟩ := List.get?_eq_some.mp hgj
  have h2 := h ⟨i, hi⟩ ⟨j, hj⟩ hij
  rw [hei, hej] at h2
  exact h2

theorem sortedP_mem_unique (l : List (Entry V)) (hs : sortedP l) (e e' : Entry V)
    (he : e ∈ l) (he' : e' ∈ l) (hk : e.1 = e'.1) : e = e' := by
  obtain ⟨i, hgi⟩ := List.mem_iff_get?.mp he
  obtain ⟨j, hgj⟩ := List.mem_iff_get?.mp he'
  rcases Nat.lt_trichotomy i j with h | h | h
  · have := sortedP_get_lt l hs i j e e' h hgi hgj
    omega
  · subst h
    rw [hgi] at hgj
    exact Option.some.inj hgj
  · have := sortedP_get_lt l hs j i e' e h hgj hgi
    omega

theorem search_complete (k c : Nat) (l : List (Entry V)) (hs : sortedP l)
    (hc : c ≤ l.length)
    (hstart : ∀ i e, i < c → l.get? i = some e → e.1 < k) :
    foundAt k (searchFrom k c l) l = true ↔ k ∈ keysOf l := by
  constructor
  · intro h
    obtain ⟨e, hg, hek⟩ := (foundAt_iff _ _ _).mp h
    exact mem_keysOf.mpr ⟨e, List.get?_mem hg, hek⟩
  · intro hk
    obtain ⟨eq, heq, heqk⟩ := mem_keysOf.mp hk
    obtain ⟨q, hgq⟩ := List.mem_iff_get?.mp heq
    have hqlen : q < l.length := (List.get?_eq_some.mp hgq).1
    have hcq : c ≤ q := by
      by_contra hlt
      have := hstart q eq (by omega) hgq
      omega
    have hple : searchFrom k c l ≤ q := by
      by_contra hgt
      have := searchFrom_lt_key k c l q eq hcq (by omega) hgq
      omega
    have hplen : searchFrom k c l < l.length := by omega
    obtain ⟨e, hge⟩ : ∃ e, l.get? (searchFrom k c l) = some e := by
      rw [List.get?_eq_get hplen]
      exact ⟨_, rfl⟩
    have hkle : k ≤ e.1 := searchFrom_ge_key k c l e hge
    have hele : e.1 ≤ k := by
      rcases Nat.lt_or_ge (searchFrom k c l) q with h | h
      · have := sortedP_get_lt l hs _ q e eq h hge hgq
        omega
      · have hq : searchFrom k c l = q := by omega
        rw [hq, hgq] at hge
        have h7 := congrArg Prod.fst (Option.some.inj hge)
        omega
    exact (foundAt_iff _ _ _).mpr ⟨e, hge, by omega⟩

theorem insertAt_get?_self (p : Nat) (x : Entry V) (l : List (Entry V))
    (hp : p ≤ l.length) : (insertAt p x l).get? p = some x := by
  unfold insertAt
  have hlen : (l.take p).length = p := by
    rw [List.length_take]
    omega
  rw [List.get?_append_right (by omega), hlen, Nat.sub_self]
  rfl

theorem mem_insertAt (p : Nat) (x y : Entry V) (l : List (Entry V)) :
    y ∈ insertAt p x l ↔ y = x ∨ y ∈ l := by
  unfold insertAt
  constructor
  · intro h
    rcases List.mem_append.mp h with h | h
    · exact Or.inr ((List.take_sublist p l).subset h)
    · rcases List.mem_cons.mp h with h | h
      · exact Or.inl h
      · exact Or.inr ((List.drop_sublist p l).subset h)
  · intro h
    rcases h with h | h
    · subst h
      exact List.mem_append.mpr (Or.inr (List.mem_cons_self _ _))
    · rw [← List.take_append_drop p l] at h
      rcases List.mem_append.mp h with h | h
      · exact List.mem_append.mpr (Or.inl h)
      · exact List.mem_append.mpr (Or.inr (List.mem_cons_of_mem _ h))

theorem sortedP_insertAt (p : Nat) (x : Entry V) (l : List (Entry V)) (hs : sortedP l)
    (hlo : ∀ i e, i < p → l.get? i = some e → e.1 < x.1)
    (hhi : ∀ i e, p ≤ i → l.get? i = some e → x.1 < e.1) :
    sortedP (insertAt p x l) := by
  unfold insertAt sortedP
  rw [List.pairwise_append]
  refine ⟨hs.sublist (List.take_sublist p l), ?_, ?_⟩
  · rw [List.pairwise_cons]
    constructor
    · intro b hb
      obtain ⟨j, hgj⟩ := List.mem_iff_get?.mp hb
      apply hhi (p + j) b (by omega)
      rw [← List.get?_drop]
      exact hgj
    · exact hs.sublist (List.drop_sublist p l)
  · intro a ha b hb
    obtain ⟨i, hgi⟩ := List.mem_iff_get?.mp ha
    have hilen : i < (l.take p).length := (List.get?_eq_some.mp hgi).1
    have hip : i < p := by
      rw [List.length_take] at hilen
      omega
    have hgi' : l.get? i = some a := by
      rw [← List.get?_take hip]
      exact hgi
    have hax : a.1 < x.1 := hlo i a hip hgi'
    rcases List.mem_cons.mp hb with hb | hb
    · rw [hb]
      exact hax
    · obtain ⟨j, hgj⟩ := List.mem_iff_get?.mp hb
      have hbx : x.1 < b.1 := by
        apply hhi (p + j) b (by omega)
        rw [← List.get?_drop]
        exact hgj
      omega

theorem dataEntries_insertAt_even (p : Nat) (x : Entry V) (l : List (Entry V))
    (hx : x.1 % 2 = 0) : dataEntries (insertAt p x l) = dataEntries l := by
  unfold insertAt dataEntries
  rw [List.filter_append, List.filter_cons_of_neg (by simp [hx]), ← List.filter_append,
    List.take_append_drop]

theorem countData_insertAt_odd (p : Nat) (x : Entry V) (l : List (Entry V))
    (hx : x.1 % 2 = 1) : countData (insertAt p x l) = countData l + 1 := by
  unfold insertAt countData dataEntries
  have hsplit : List.filter (fun e : Entry V => e.1 % 2 == 1) l
      = List.filter (fun e : Entry V => e.1 % 2 == 1) (l.take p)
        ++ List.filter (fun e : Entry V => e.1 % 2 == 1) (l.drop p) := by
    conv_lhs => rw [← List.take_append_drop p l]
    rw [List.filter_append]
  rw [List.filter_append, List.filter_cons_of_pos (by simp [hx]), hsplit,
    List.length_append, List.length_append, List.length_cons]
  omega

theorem get?_decomp (l : List (Entry V)) (p : Nat) (e : Entry V)
    (hg : l.get? p = some e) : l = l.take p ++ e :: l.drop (p + 1) := by
  obtain ⟨hp, hget⟩ := List.get?_eq_some.mp hg
  conv_lhs => rw [← List.take_append_drop p l]
  rw [List.drop_eq_get_cons hp, hget]

theorem countData_eraseAt_odd (p : Nat) (e : Entry V) (l : List (Entry V))
    (hg : l.get? p = some e) (he : e.1 % 2 = 1) :
    countData l = countData (eraseAt p l) + 1 := by
  unfold countData dataEntries eraseAt
  conv_lhs => rw [get?_decomp l p e hg]
  rw [List.filter_append, List.filter_cons_of_pos (by simp [he]), List.filter_append,
    List.length_append, List.length_append, List.length_cons]
  omega

theorem countData_eraseAt_even (p : Nat) (e : Entry V) (l : List (Entry V))
    (hg : l.get? p = some e) (he : e.1 % 2 = 0) :
    countData (eraseAt p l) = countData l := by
  unfold countData dataEntries eraseAt
  conv_rhs => rw [get?_decomp l p e hg]
  rw [List.filter_append, List.filter_append, List.filter_cons_of_neg (by simp [he])]

theorem eraseAt_sublist (p : Nat) (l : List (Entry V)) :
    List.Sublist (eraseAt p l) l := by
  unfold eraseAt
  have h1 : List.Sublist (l.drop (p + 1)) (l.drop p) := by
    rw [← List.drop_drop 1 p l]
    exact List.drop_sublist 1 (l.drop p)
  have h2 := h1.append_left (l.take p)
  rw [List.take_append_drop] at h2
  exact h2

theorem sortedP_eraseAt (p : Nat) (l : List (Entry V)) (hs : sortedP l) :
    sortedP (eraseAt p l) :=
  hs.sublist (eraseAt_sublist p l)

theorem mem_eraseAt (p : Nat) (y : Entry V) (l : List (Entry V))
    (h : y ∈ eraseAt p l) : y ∈ l :=
  (eraseAt_sublist p l).subset h

theorem keysOf_mem_eraseAt (p : Nat) (e : Entry V) (l : List (Entry V))
    (hg : l.get? p = some e) (kk : Nat) (hk : kk ∈ keysOf l) (hne : kk ≠ e.1) :
    kk ∈ keysOf (eraseAt p l) := by
  obtain ⟨y, hy, hyk⟩ := mem_keysOf.mp hk
  rw [get?_decomp l p e hg] at hy
  unfold eraseAt
  rcases List.mem_append.mp hy with h | h
  · exact mem_keysOf.mpr ⟨y, List.mem_append.mpr (Or.inl h), hyk⟩
  · rcases List.mem_cons.mp h with h | h
    · rw [h] at hyk
      omega
    · exact mem_keysOf.mpr ⟨y, List.mem_append.mpr (Or.inr h), hyk⟩

theorem idxOfKey_spec (k : Nat) :
    ∀ l : List (Entry V), k ∈ keysOf l → ∃ w, l.get? (idxOfKey k l) = some (k, w)
  | [], h => by simp [keysOf] at h
  | ⟨k', w⟩ :: rest, h => by
    unfold idxOfKey
    by_cases he : k' = k
    · subst he
      rw [if_pos (by simp)]
      exact ⟨w, rfl⟩
    · rw [if_neg (by simp [he])]
      have h2 : k ∈ keysOf rest := by
        rcases mem_keysOf.mp h with ⟨e, hel, hek⟩
        rcases List.mem_cons.mp hel with h3 | h3
        · rw [h3] at hek
          simp at hek
          omega
        · exact mem_keysOf.mpr ⟨e, h3, hek⟩
      obtain ⟨w', hw⟩ := idxOfKey_spec k rest h2
      exact ⟨w', hw⟩

theorem mem_keysOf_dataEntries (l : List (Entry V)) (k : Nat) (hk : k % 2 = 1) :
    k ∈ keysOf l ↔ k ∈ keysOf (dataEntries l) := by
  rw [mem_keysOf, mem_keysOf]
  constructor
  · rintro ⟨e, he, hek⟩
    exact ⟨e, List.mem_filter.mpr ⟨he, by simp [hek, hk]⟩, hek⟩
  · rintro ⟨e, he, hek⟩
    exact ⟨e, (List.mem_filter.mp he).1, hek⟩

theorem nodup_lt_length_le (L : List Nat) (hn : L.Nodup) (N : Nat)
    (hlt : ∀ x ∈ L, x < N) : L.length ≤ N := by
  have h1 : L.toFinset.card = L.length := List.toFinset_card_of_nodup hn
  have h2 : L.toFinset ⊆ Finset.range N := by
    intro x hx
    rw [Finset.mem_range]
    exact hlt x (List.mem_toFinset.mp hx)
  have h3 := Finset.card_le_card h2
  rw [Finset.card_range] at h3
  omega

theorem countData_le (l : List (Entry V)) (hs : sortedP l) (hb : keysBound l) :
    countData l ≤ 2 ^ 63 := by
  have h1 : (keysOf l).Pairwise (· < ·) := by
    unfold keysOf
    exact List.pairwise_map.mpr hs
  have h2 : (keysOf l).Nodup := h1.imp fun h => Nat.ne_of_lt h
  have h3 : List.Sublist (dataEntries l) l := List.filter_sublist l
  have h4 : List.Sublist (keysOf (dataEntries l)) (keysOf l) := h3.map Prod.fst
  have hnd : (keysOf (dataEntries l)).Nodup := h2.sublist h4
  have hodd : ∀ x ∈ keysOf (dataEntries l), x % 2 = 1 ∧ x < U64 := by
    intro x hx
    obtain ⟨e, he, hek⟩ := mem_keysOf.mp hx
    obtain ⟨hel, hep⟩ := List.mem_filter.mp he
    constructor
    · rw [← hek]
      simpa using hep
    · rw [← hek]
      exact hb e hel
  have hU : U64 = 2 ^ 63 * 2 := by
    unfold U64
    ring
  have hLn : ((keysOf (dataEntries l)).map (fun x => x / 2)).Nodup := by
    apply List.Nodup.map_on _ hnd
    intro x hx y hy hxy
    have h5 := hodd x hx
    have h6 := hodd y hy
    omega
  have hLlt : ∀ x ∈ (keysOf (dataEntries l)).map (fun x => x / 2), x < 2 ^ 63 := by
    intro x hx
    obtain ⟨y, hy, hyx⟩ := List.mem_map.mp hx
    have h5 := hodd y hy
    rw [hU] at h5
    omega
  have hlen := nodup_lt_length_le _ hLn (2 ^ 63) hLlt
  have hkl : (keysOf (dataEntries l)).length = (dataEntries l).length := by
    unfold keysOf
    exact List.length_map _ _
  rw [List.length_map, hkl] at hlen
  unfold countData
  exact hlen

end ListFacts

/-! ### The `lookup_bucket` postcondition -/

section BucketFacts

variable {V : Type}

theorem lookup_bucket_fast (fuel size index : Nat) (st : MapState V)
    (h : index ∈ st.buckets) :
    lookup_bucket (fuel + 1) size index st
      = (idxOfKey (reverseBits64 index) st.list, st) := by
  unfold lookup_bucket
  rw [if_pos h]

theorem lookup_bucket_new (fuel size index : Nat) (st : MapState V)
    (start : Nat × MapState V) (h : ¬ index ∈ st.buckets)
    (hstart : start = if get_parent index size = 0 then ((0 : Nat), st)
              else lookup_bucket fuel size (get_parent index size) st) :
    lookup_bucket (fuel + 1) size index st
      = ((sentinel_phase (reverseBits64 index) start.1 start.2).1,
         { (sentinel_phase (reverseBits64 index) start.1 start.2).2 with
             buckets :=
               index :: (sentinel_phase (reverseBits64 index) start.1 start.2).2.buckets }) := by
  subst hstart
  conv_lhs => unfold lookup_bucket
  rw [if_neg h]

theorem Extends_refl (st : MapState V) (hs : sortedP st.list) (hp : parityOK st.list)
    (hkb : keysBound st.list) (hbk : bucketsOK st) : Extends st st :=
  ⟨rfl, rfl, hs, hp, hkb, hbk, rfl, fun _ h => h, fun _ h => h⟩

theorem sentinel_phase_spec (sk c : Nat) (st0 : MapState V)
    (hsk0 : sk % 2 = 0) (hsklt : sk < U64)
    (hs0 : sortedP st0.list) (hp0 : parityOK st0.list) (hkb0 : keysBound st0.list)
    (hc : c ≤ st0.list.length)
    (hstart : ∀ i e, i < c → st0.list.get? i = some e → e.1 < sk) :
    (sentinel_phase sk c st0).2.size = st0.size ∧
    (sentinel_phase sk c st0).2.count = st0.count ∧
    (sentinel_phase sk c st0).2.buckets = st0.buckets ∧
    sortedP (sentinel_phase sk c st0).2.list ∧
    parityOK (sentinel_phase sk c st0).2.list ∧
    keysBound (sentinel_phase sk c st0).2.list ∧
    dataEntries (sentinel_phase sk c st0).2.list = dataEntries st0.list ∧
    (∀ e ∈ st0.list, e ∈ (sentinel_phase sk c st0).2.list) ∧
    ∃ w, (sentinel_phase sk c st0).2.list.get? (sentinel_phase sk c st0).1
          = some (sk, w) := by
  unfold sentinel_phase
  by_cases hf : foundAt sk (searchFrom sk c st0.list) st0.list = true
  · rw [if_pos hf]
    obtain ⟨e, hg, hek⟩ := (foundAt_iff _ _ _).mp hf
    obtain ⟨e1, e2⟩ := e
    simp only at hek
    subst hek
    exact ⟨rfl, rfl, rfl, hs0, hp0, hkb0, rfl, fun _ he => he, ⟨e2, hg⟩⟩
  · rw [if_neg hf]
    have hposle : searchFrom sk c st0.list ≤ st0.list.length :=
      searchFrom_le_length sk c st0.list hc
    have hget : (insertAt (searchFrom sk c st0.list) (sk, none) st0.list).get?
        (searchFrom sk c st0.list) = some (sk, none) :=
      insertAt_get?_self _ (sk, none) st0.list hposle
    have hlo : ∀ i e, i < searchFrom sk c st0.list →
        st0.list.get? i = some e → e.1 < sk := by
      intro i e hi hg
      rcases Nat.lt_or_ge i c with h | h
      · exact hstart i e h hg
      · exact searchFrom_lt_key sk c st0.list i e h hi hg
    have hhi : ∀ i e, searchFrom sk c st0.list ≤ i →
        st0.list.get? i = some e → sk < e.1 := by
      intro i e hi hg
      have hilen : i < st0.list.length := (List.get?_eq_some.mp hg).1
      have hplen : searchFrom sk c st0.list < st0.list.length := by omega
      obtain ⟨e', hge'⟩ : ∃ e', st0.list.get? (searchFrom sk c st0.list) = some e' := by
        rw [List.get?_eq_get hplen]
        exact ⟨_, rfl⟩
      have h1 : sk ≤ e'.1 := searchFrom_ge_key sk c st0.list e' hge'
      have h2 : e'.1 ≠ sk := by
        intro hcontra
        exact hf ((foundAt_iff _ _ _).mpr ⟨e', hge', hcontra⟩)
      rcases Nat.lt_or_ge (searchFrom sk c st0.list) i with h3 | h3
      · have := sortedP_get_lt st0.list hs0 _ i e' e h3 hge' hg
        omega
      · have heq : searchFrom sk c st0.list = i := by omega
        rw [heq, hg] at hge'
        have h4 := congrArg Prod.fst (Option.some.inj hge')
        omega
    refine ⟨rfl, rfl, rfl, ?_, ?_, ?_, ?_, ?_, ⟨none, hget⟩⟩
    · exact sortedP_insertAt _ (sk, none) st0.list hs0 hlo hhi
    · intro e he
      rcases (mem_insertAt _ (sk, none) e st0.list).mp he with h | h
      · rw [h]
        exact ⟨fun h2 => by omega, fun _ => rfl⟩
      · exact hp0 e h
    · intro e he
      rcases (mem_insertAt _ (sk, none) e st0.list).mp he with h | h
      · rw [h]
        exact hsklt
      · exact hkb0 e h
    · exact dataEntries_insertAt_even _ (sk, none) st0.list hsk0
    · intro e he
      exact (mem_insertAt _ (sk, none) e st0.list).mpr (Or.inr he)

theorem lookup_bucket_finish (index : Nat) (st : MapState V)
    (start : Nat × MapState V) (hidx63 : index < 2 ^ 63)
    (hext : Extends st start.2)
    (hc : start.1 ≤ start.2.list.length)
    (hstart : ∀ i e, i < start.1 → start.2.list.get? i = some e →
      e.1 < reverseBits64 index) :
    Extends st
      { (sentinel_phase (reverseBits64 index) start.1 start.2).2 with
          buckets :=
            index :: (sentinel_phase (reverseBits64 index) start.1 start.2).2.buckets } ∧
    index ∈ (index :: (sentinel_phase (reverseBits64 index) start.1 start.2).2.buckets) ∧
    ∃ w, (sentinel_phase (reverseBits64 index) start.1 start.2).2.list.get?
          (sentinel_phase (reverseBits64 index) start.1 start.2).1
        = some (reverseBits64 index, w) := by
  obtain ⟨hsz, hcnt, hs0, hp0, hkb0, hbk0, hdata, hmeml, hmemb⟩ := hext
  have hsp := sentinel_phase_spec (reverseBits64 index) start.1 start.2
    (reverseBits64_mod_two index hidx63) (reverseBits64_lt index)
    hs0 hp0 hkb0 hc hstart
  obtain ⟨gsz, gcnt, gbk, gs, gp, gkb, gdata, gmem, w, hw⟩ := hsp
  refine ⟨⟨gsz.trans hsz, gcnt.trans hcnt, gs, gp, gkb, ?_, gdata.trans hdata, ?_, ?_⟩,
    List.mem_cons_self _ _, ⟨w, hw⟩⟩
  · intro i hi
    rcases List.mem_cons.mp hi with hi | hi
    · rw [hi]
      exact ⟨hidx63, mem_keysOf.mpr ⟨(reverseBits64 index, w), List.get?_mem hw, rfl⟩⟩
    · rw [gbk] at hi
      obtain ⟨e, hel, hek⟩ := mem_keysOf.mp (hbk0 i hi).2
      exact ⟨(hbk0 i hi).1, mem_keysOf.mpr ⟨e, gmem e hel, hek⟩⟩
  · intro e he
    exact gmem e (hmeml e he)
  · intro i hi
    apply List.mem_cons_of_mem
    rw [gbk]
    exact hmemb i hi

theorem lookup_bucket_spec (s : Nat) (hs62 : s ≤ 62) :
    ∀ (fuel index : Nat) (st : MapState V),
      index < fuel → index < 2 ^ s →
      sortedP st.list → parityOK st.list → keysBound st.list → bucketsOK st →
      Extends st (lookup_bucket fuel (2 ^ s) index st).2 ∧
      index ∈ (lookup_bucket fuel (2 ^ s) index st).2.buckets ∧
      ∃ w, (lookup_bucket fuel (2 ^ s) index st).2.list.get?
            (lookup_bucket fuel (2 ^ s) index st).1
          = some (reverseBits64 index, w) := by
  intro fuel
  induction fuel with
  | zero =>
    intro index st h
    omega
  | succ fuel ih =>
    intro index st hfuel hidx hs hp hkb hbk
    have hidx63 : index < 2 ^ 63 := by
      have h1 : (2 : Nat) ^ s ≤ 2 ^ 62 := Nat.pow_le_pow_right (by norm_num) hs62
      have h2 : (2 : Nat) ^ 62 < 2 ^ 63 := by norm_num
      omega
    by_cases hmem : index ∈ st.buckets
    · rw [lookup_bucket_fast fuel (2 ^ s) index st hmem]
      obtain ⟨w, hw⟩ := idxOfKey_spec (reverseBits64 index) st.list (hbk index hmem).2
      exact ⟨Extends_refl st hs hp hkb hbk, hmem, ⟨w, hw⟩⟩
    · by_cases hpar : get_parent index (2 ^ s) = 0
      · rw [lookup_bucket_new fuel (2 ^ s) index st ((0 : Nat), st) hmem
          (by rw [if_pos hpar])]
        apply lookup_bucket_finish index st ((0 : Nat), st) hidx63
          (Extends_refl st hs hp hkb hbk) (Nat.zero_le _)
        intro i e hi
        omega
      · have h0 : 0 < index := by
          by_contra h
          have h1 : index = 0 := by omega
          rw [h1] at hpar
          exact hpar (get_parent_zero _)
        have hplt : get_parent index (2 ^ s) < index :=
          get_parent_lt s index h0 hidx (by omega)
        have hih := ih (get_parent index (2 ^ s)) st (by omega) (by omega) hs hp hkb hbk
        obtain ⟨hext, hpmem, w0, hw0⟩ := hih
        rw [lookup_bucket_new fuel (2 ^ s) index st
          (lookup_bucket fuel (2 ^ s) (get_parent index (2 ^ s)) st) hmem
          (by rw [if_neg hpar])]
        apply lookup_bucket_finish index st _ hidx63 hext
          (by
            have := (List.get?_eq_some.mp hw0).1
            omega)
        -- entries before the parent sentinel cursor are below the new sentinel key
        intro i e hi hg
        obtain ⟨hd1, hd2⟩ := get_parent_decomp s index h0 hidx (by omega)
        have hL : Nat.log 2 index ≤ 63 := by
          have h1 := Nat.pow_log_le_self 2 (by omega : index ≠ 0)
          by_contra hL
          have h2 : (2 : Nat) ^ 64 ≤ 2 ^ Nat.log 2 index :=
            Nat.pow_le_pow_right (by norm_num) (by omega)
          have h3 : index < 2 ^ 63 := hidx63
          have h4 : (2 : Nat) ^ 63 < 2 ^ 64 := by norm_num
          omega
        have hrev : reverseBits64 (get_parent index (2 ^ s) + 2 ^ Nat.log 2 index)
            = reverseBits64 (get_parent index (2 ^ s)) + 2 ^ (63 - Nat.log 2 index) :=
          reverseBits64_add_pow _ _ hd2 hL
        rw [hd1] at hrev
        have hlt : reverseBits64 (get_parent index (2 ^ s)) < reverseBits64 index := by
          have h5 := Nat.two_pow_pos (63 - Nat.log 2 index)
          omega
        have h6 := sortedP_get_lt _
          (by
            obtain ⟨_, _, hs0, _⟩ := hext
            exact hs0)
          i _ e (reverseBits64 (get_parent index (2 ^ s)), w0) hi hg hw0
        omega

end BucketFacts

/-! ### The `find` postcondition and the operation unfoldings -/

section FindFacts

variable {V : Type}

theorem searchFrom_gt_key (k c : Nat) (l : List (Entry V)) (hs : sortedP l)
    (hnf : foundAt k (searchFrom k c l) l = false) (i : Nat) (e : Entry V)
    (hi : searchFrom k c l ≤ i) (hg : l.get? i = some e) : k < e.1 := by
  have hilen : i < l.length := (List.get?_eq_some.mp hg).1
  have hplen : searchFrom k c l < l.length := by omega
  obtain ⟨e', hge'⟩ : ∃ e', l.get? (searchFrom k c l) = some e' := by
    rw [List.get?_eq_get hplen]
    exact ⟨_, rfl⟩
  have h1 : k ≤ e'.1 := searchFrom_ge_key k c l e' hge'
  have h2 : e'.1 ≠ k := by
    intro hcontra
    rw [(foundAt_iff k (searchFrom k c l) l).mpr ⟨e', hge', hcontra⟩] at hnf
    cases hnf
  rcases Nat.lt_or_ge (searchFrom k c l) i with h3 | h3
  · have := sortedP_get_lt l hs _ i e' e h3 hge' hg
    omega
  · have heq : searchFrom k c l = i := by omega
    rw [heq, hg] at hge'
    have h4 := congrArg Prod.fst (Option.some.inj hge')
    omega

theorem find_spec (key : Nat) (st : MapState V) (hk : key < 2 ^ 63)
    (hs : sortedP st.list) (hp : parityOK st.list) (hkb : keysBound st.list)
    (hbk : bucketsOK st) (hsz : ∃ s, 1 ≤ s ∧ s ≤ 62 ∧ st.size = 2 ^ s) :
    (find key st).1 = st.size ∧
    Extends st (find key st).2.2.2 ∧
    ((find key st).2.1 = true ↔ tKey key ∈ keysOf st.list) ∧
    ((find key st).2.1 = true →
      ∃ e : Entry V, (find key st).2.2.2.list.get? (find key st).2.2.1 = some e ∧
        e.1 = tKey key ∧ e ∈ st.list) ∧
    ((find key st).2.1 = false →
      (find key st).2.2.1 ≤ (find key st).2.2.2.list.length ∧
      (∀ i e, i < (find key st).2.2.1 →
        (find key st).2.2.2.list.get? i = some e → e.1 < tKey key) ∧
      (∀ i e, (find key st).2.2.1 ≤ i →
        (find key st).2.2.2.list.get? i = some e → tKey key < e.1)) := by
  obtain ⟨s, hs1, hs62, hsize⟩ := hsz
  have heq : find key st
      = (st.size,
         foundAt (tKey key) (searchFrom (tKey key)
           (lookup_bucket (key % 2 ^ s + 1) (2 ^ s) (key % 2 ^ s) st).1
           (lookup_bucket (key % 2 ^ s + 1) (2 ^ s) (key % 2 ^ s) st).2.list)
           (lookup_bucket (key % 2 ^ s + 1) (2 ^ s) (key % 2 ^ s) st).2.list,
         searchFrom (tKey key)
           (lookup_bucket (key % 2 ^ s + 1) (2 ^ s) (key % 2 ^ s) st).1
           (lookup_bucket (key % 2 ^ s + 1) (2 ^ s) (key % 2 ^ s) st).2.list,
         (lookup_bucket (key % 2 ^ s + 1) (2 ^ s) (key % 2 ^ s) st).2) := by
    unfold find
    rw [hsize]
  have hbktlt : key % 2 ^ s < 2 ^ s := Nat.mod_lt _ (Nat.two_pow_pos s)
  have hspec := lookup_bucket_spec s hs62 (key % 2 ^ s + 1) (key % 2 ^ s) st
    (by omega) hbktlt hs hp hkb hbk
  obtain ⟨hext, hbmem, w, hw⟩ := hspec
  obtain ⟨hsz0, hcnt0, hs0, hp0, hkb0, hbk0, hdata0, hmeml0, hmemb0⟩ := hext
  have hclen := (List.get?_eq_some.mp hw).1
  have hrevle : reverseBits64 (key % 2 ^ s) ≤ tKey key :=
    sentinel_le_tKey s key (by omega) hk
  have hstart : ∀ i e, i < (lookup_bucket (key % 2 ^ s + 1) (2 ^ s) (key % 2 ^ s) st).1 →
      (lookup_bucket (key % 2 ^ s + 1) (2 ^ s) (key % 2 ^ s) st).2.list.get? i = some e →
      e.1 < tKey key := by
    intro i e hi hg
    have h1 := sortedP_get_lt _ hs0 i _ e _ hi hg hw
    simp only at h1
    omega
  have hodd := tKey_odd key hk
  have hmemiff : tKey key ∈
        keysOf (lookup_bucket (key % 2 ^ s + 1) (2 ^ s) (key % 2 ^ s) st).2.list
      ↔ tKey key ∈ keysOf st.list := by
    rw [mem_keysOf_dataEntries _ _ hodd, hdata0, ← mem_keysOf_dataEntries _ _ hodd]
  have hcomp := search_complete (tKey key)
    (lookup_bucket (key % 2 ^ s + 1) (2 ^ s) (key % 2 ^ s) st).1
    (lookup_bucket (key % 2 ^ s + 1) (2 ^ s) (key % 2 ^ s) st).2.list
    hs0 (by omega) hstart
  rw [heq]
  refine ⟨rfl, ?_, ?_, ?_, ?_⟩
  · exact ⟨hsz0, hcnt0, hs0, hp0, hkb0, hbk0, hdata0, hmeml0, hmemb0⟩
  · exact hcomp.trans hmemiff
  · intro hfnd
    obtain ⟨e, hge, hek⟩ := (foundAt_iff _ _ _).mp hfnd
    refine ⟨e, hge, hek, ?_⟩
    have he0 : e ∈ (lookup_bucket (key % 2 ^ s + 1) (2 ^ s) (key % 2 ^ s) st).2.list :=
      List.get?_mem hge
    have he1 : e ∈ dataEntries
        (lookup_bucket (key % 2 ^ s + 1) (2 ^ s) (key % 2 ^ s) st).2.list :=
      List.mem_filter.mpr ⟨he0, by simp [hek, hodd]⟩
    rw [hdata0] at he1
    exact (List.mem_filter.mp he1).1
  · intro hfnd
    refine ⟨searchFrom_le_length _ _ _ (by omega), ?_, ?_⟩
    · intro i e hi hg
      rcases Nat.lt_or_ge i
          (lookup_bucket (key % 2 ^ s + 1) (2 ^ s) (key % 2 ^ s) st).1 with h | h
      · exact hstart i e h hg
      · exact searchFrom_lt_key _ _ _ i e h hi hg
    · intro i e hi hg
      exact searchFrom_gt_key _ _ _ hs0 hfnd i e hi hg

theorem lookup_valid (key : Nat) (st : MapState V) (hk : key < 2 ^ 63) :
    lookup key st =
      if (find key st).2.1 then
        match (find key st).2.2.2.list.get? (find key st).2.2.1 with
        | some e => some (e.2, (find key st).2.2.2)
        | none => none
      else some (none, (find key st).2.2.2) := by
  unfold lookup
  rw [if_pos hk]

theorem lookup_invalid (key : Nat) (st : MapState V) (hk : ¬ key < 2 ^ 63) :
    lookup key st = none := by
  unfold lookup
  rw [if_neg hk]

theorem insert_valid (key : Nat) (v : V) (casOk : Bool) (st : MapState V)
    (hk : key < 2 ^ 63) :
    insert key v casOk st =
      if (find key st).2.1 then some (Except.error v, (find key st).2.2.2)
      else if casOk then
        some (Except.ok (),
          { list := insertAt (find key st).2.2.1 (tKey key, some v)
              (find key st).2.2.2.list,
            buckets := (find key st).2.2.2.buckets,
            size :=
              if ((find key st).1 * LOAD_FACTOR) % U64
                  < ((find key st).2.2.2.count + 1) % U64 then
                if (find key st).2.2.2.size = (find key st).1 then
                  ((find key st).1 * 2) % U64
                else (find key st).2.2.2.size
              else (find key st).2.2.2.size,
            count := ((find key st).2.2.2.count + 1) % U64 })
      else some (Except.error v, (find key st).2.2.2) := by
  unfold insert
  rw [if_pos hk]

theorem insert_invalid (key : Nat) (v : V) (casOk : Bool) (st : MapState V)
    (hk : ¬ key < 2 ^ 63) : insert key v casOk st = none := by
  unfold insert
  rw [if_neg hk]

theorem delete_valid (key : Nat) (delOk : Bool) (st : MapState V)
    (hk : key < 2 ^ 63) :
    delete key delOk st =
      if (find key st).2.1 = false then some (Except.error (), (find key st).2.2.2)
      else if delOk then
        match (find key st).2.2.2.list.get? (find key st).2.2.1 with
        | some e =>
          match e.2 with
          | some v => some (Except.ok v,
              { list := eraseAt (find key st).2.2.1 (find key st).2.2.2.list,
                buckets := (find key st).2.2.2.buckets,
                size := (find key st).2.2.2.size,
                count := ((find key st).2.2.2.count + (U64 - 1)) % U64 })
          | none => some (Except.error (),
              { list := eraseAt (find key st).2.2.1 (find key st).2.2.2.list,
                buckets := (find key st).2.2.2.buckets,
                size := (find key st).2.2.2.size,
                count := (find key st).2.2.2.count })
        | none => none
      else some (Except.error (), (find key st).2.2.2) := by
  unfold delete
  rw [if_pos hk]

theorem delete_invalid (key : Nat) (delOk : Bool) (st : MapState V)
    (hk : ¬ key < 2 ^ 63) : delete key delOk st = none := by
  unfold delete
  rw [if_neg hk]

end FindFacts

/-! ### The map value at a key -/

section LiveFacts

variable {V : Type}

theorem liveValue_of_not_mem (key : Nat) (l : List (Entry V))
    (h : ¬ tKey key ∈ keysOf l) : liveValue key l = none := by
  unfold liveValue
  cases hf : l.find? (fun e => e.1 == tKey key) with
  | none => rfl
  | some e =>
    have h1 := List.find?_some hf
    have h2 := List.mem_of_find?_eq_some hf
    exact absurd (mem_keysOf.mpr ⟨e, h2, by simpa using h1⟩) h

theorem liveValue_of_mem (key : Nat) (l : List (Entry V)) (hs : sortedP l)
    (e : Entry V) (he : e ∈ l) (hek : e.1 = tKey key) : liveValue key l = e.2 := by
  unfold liveValue
  cases hf : l.find? (fun e => e.1 == tKey key) with
  | none =>
    have h1 := List.find?_eq_none.mp hf e he
    simp [hek] at h1
  | some e' =>
    have h1 := List.find?_some hf
    have h2 := List.mem_of_find?_eq_some hf
    have h3 : e' = e := by
      apply sortedP_mem_unique l hs e' e h2 he
      have h4 : e'.1 = tKey key := by simpa using h1
      omega
    rw [h3]

end LiveFacts

/-! ### Claim theorems (first group) -/

/-- C4: sequential round trip on a fresh map: `insert(5, "a")` succeeds,
`delete(5)` returns `Ok("a")`, a subsequent `lookup(5)` returns absent, and a
second `delete(5)` returns `Err(())`. -/
theorem C4_round_trip :
    c4_r1.map Prod.fst = some (Except.ok ()) ∧
    c4_r2.map Prod.fst = some (Except.ok "a") ∧
    c4_r3.map Prod.fst = some none ∧
    c4_r4.map Prod.fst = some (Except.error ()) :=
  ⟨rfl, rfl, rfl, rfl⟩

/-- C6: for every bucket index `i` with `0 < i < size` and `size = 2 ^ s` a
power of two of `usize` width, the repeated right-shift computation of
`get_parent` yields `i - 2 ^ log2 i`, where `2 ^ log2 i` is the highest power
of two that is `≤ i` (witnessed by the two inequalities); and the loop
terminates for `i = 0` as well, yielding `0` for every `size`. -/
theorem C6_get_parent_correct (s i : Nat) (h0 : 0 < i) (h1 : i < 2 ^ s)
    (hs : s ≤ 64) :
    get_parent i (2 ^ s) = i - 2 ^ Nat.log 2 i ∧
    2 ^ Nat.log 2 i ≤ i ∧ i < 2 ^ Nat.log 2 i * 2 ∧
    ∀ size, get_parent 0 size = 0 := by
  refine ⟨get_parent_pow_eq s i h0 h1 hs,
    Nat.pow_log_le_self 2 (by omega), ?_, get_parent_zero⟩
  have h3 := Nat.lt_pow_succ_log_self (by norm_num : 1 < 2) i
  rw [Nat.succ_eq_add_one] at h3
  have h4 : (2 : Nat) ^ (Nat.log 2 i + 1) = 2 ^ Nat.log 2 i * 2 := by ring
  omega

/-- Witness for C6 at `i = 5`, `size = 2 ^ 3`. -/
theorem C6_witness :
    get_parent 5 (2 ^ 3) = 5 - 2 ^ Nat.log 2 5 ∧
    2 ^ Nat.log 2 5 ≤ 5 ∧ 5 < 2 ^ Nat.log 2 5 * 2 ∧
    ∀ size, get_parent 0 size = 0 :=
  C6_get_parent_correct 3 5 (by norm_num) (by norm_num) (by norm_num)

/-- C5 counterexample: on a fresh map (`size = 2`) resolving bucket
`i = 1 ≠ 0` computes parent index `0` and therefore starts at the list head
without ever resolving bucket 0: afterwards bucket 1's sentinel is the only
list node and bucket 0 is not materialized, its sentinel key
`reverseBits64 0 = 0` absent — refuting both "starts at the list head iff
`i = 0`" and "for every `i > 0` the parent bucket's sentinel is resolved
(created if absent) before bucket `i`'s sentinel is inserted". -/
theorem C5_counterexample :
    get_parent 1 2 = 0 ∧
    (lookup_bucket 2 2 1 (initState Nat)).2.buckets = [1] ∧
    keysOf (lookup_bucket 2 2 1 (initState Nat)).2.list = [reverseBits64 1] ∧
    ¬ 0 ∈ (lookup_bucket 2 2 1 (initState Nat)).2.buckets ∧
    ¬ reverseBits64 0 ∈ keysOf (lookup_bucket 2 2 1 (initState Nat)).2.list := by
  decide

/-- C9: whenever `find` reports found for a valid user key, the node at the
returned cursor carries the searched transformed key `reverseBits64 key ||| 1`
and a `some` value — it is a regular data node, never a sentinel (data keys
have low bit 1, sentinel keys low bit 0) — so the `unwrap` in `lookup` and the
`Ok(Some(..))` extraction in `delete` cannot panic. -/
theorem C9_found_is_data (V : Type) (key : Nat) (st : MapState V)
    (hk : key < 2 ^ 63) (hinv : Inv st) (sz pos : Nat) (st' : MapState V)
    (hfind : find key st = (sz, true, pos, st')) :
    ∃ v : V, st'.list.get? pos = some (tKey key, some v) := by
  obtain ⟨hs, hp, hkb, hbk, hcnt, hsz⟩ := hinv
  obtain ⟨h1, hext, hiff, hfound, hnf⟩ := find_spec key st hk hs hp hkb hbk hsz
  rw [hfind] at hfound
  obtain ⟨e, hge, hek, hemem⟩ := hfound rfl
  obtain ⟨hsz', hcnt', hs', hp', hkb', hbk', hdata', hmem', hmb'⟩ := hext
  rw [hfind] at hp'
  have hodd : e.1 % 2 = 1 := by
    rw [hek]
    exact tKey_odd key hk
  have hsome := (hp' e (List.get?_mem hge)).1 hodd
  obtain ⟨v, hv⟩ := Option.isSome_iff_exists.mp hsome
  refine ⟨v, ?_⟩
  rw [hge]
  obtain ⟨e1, e2⟩ := e
  simp only at hek hv
  rw [hek, hv]

/-- C3: for every valid key, `lookup` returns exactly the value stored at the
key's (unique, odd) transformed key — `some` when the key is live, `none`
otherwise, sentinel nodes never matching — and it leaves `size`, `count` and
the map contents (the data entries) unchanged. -/
theorem C3_lookup_spec (V : Type) (key : Nat) (st : MapState V)
    (hk : key < 2 ^ 63) (hinv : Inv st) :
    ∃ st', lookup key st = some (liveValue key st.list, st') ∧
      st'.size = st.size ∧ st'.count = st.count ∧
      dataEntries st'.list = dataEntries st.list := by
  obtain ⟨hs, hp, hkb, hbk, hcnt, hsz⟩ := hinv
  obtain ⟨h1, hext, hiff, hfound, hnf⟩ := find_spec key st hk hs hp hkb hbk hsz
  obtain ⟨hsz', hcnt', hs', hp', hkb', hbk', hdata', hmem', hmb'⟩ := hext
  refine ⟨(find key st).2.2.2, ?_, hsz', hcnt', hdata'⟩
  rw [lookup_valid key st hk]
  cases hfnd : (find key st).2.1 with
  | false =>
    have hnotmem : ¬ tKey key ∈ keysOf st.list := by
      intro hmem2
      rw [hiff.mpr hmem2] at hfnd
      cases hfnd
    rw [liveValue_of_not_mem key st.list hnotmem]
    rfl
  | true =>
    obtain ⟨e, hge, hek, hemem⟩ := hfound hfnd
    rw [liveValue_of_mem key st.list hs e hemem hek, hge]
    rfl

/-- C1: for every valid key, `insert` returns `Except.error` carrying exactly
the unconsumed value both when the key is already present (for either CAS
outcome — the stored entry is not overwritten) and when the single data-node
CAS attempt fails (`casOk = false`); a single failed CAS suffices for the
failure, i.e. `insert` never retries the data-node CAS internally. -/
theorem C1_insert_err (V : Type) (key : Nat) (v : V) (casOk : Bool)
    (st : MapState V) (hk : key < 2 ^ 63) (hinv : Inv st)
    (h : tKey key ∈ keysOf st.list ∨ casOk = false) :
    ∃ st', insert key v casOk st = some (Except.error v, st') ∧
      st'.size = st.size ∧ st'.count = st.count ∧
      dataEntries st'.list = dataEntries st.list := by
  obtain ⟨hs, hp, hkb, hbk, hcnt, hsz⟩ := hinv
  obtain ⟨h1, hext, hiff, hfound, hnf⟩ := find_spec key st hk hs hp hkb hbk hsz
  obtain ⟨hsz', hcnt', hs', hp', hkb', hbk', hdata', hmem', hmb'⟩ := hext
  refine ⟨(find key st).2.2.2, ?_, hsz', hcnt', hdata'⟩
  rw [insert_valid key v casOk st hk]
  rcases h with hmem | hcas
  · rw [hiff.mpr hmem]
    rfl
  · cases hfnd : (find key st).2.1 with
    | true => rfl
    | false =>
      rw [hcas]
      rfl

/-- C2: for every valid key, `delete` returns `Except.error ()` when the key
is absent; when present it performs the logical delete at the cursor: on CAS
success it removes the entry, decrements `count`, and returns `Ok` with the
stored value, while on CAS conflict it returns the same `Except.error ()` as
the not-found case, leaving `count` and the data entries untouched. -/
theorem C2_delete_spec (V : Type) (key : Nat) (delOk : Bool) (st : MapState V)
    (hk : key < 2 ^ 63) (hinv : Inv st) :
    (liveValue key st.list = none →
      ∃ st', delete key delOk st = some (Except.error (), st') ∧
        st'.count = st.count ∧ dataEntries st'.list = dataEntries st.list) ∧
    (∀ v : V, liveValue key st.list = some v →
      (∃ st', delete key true st = some (Except.ok v, st') ∧
        st'.count + 1 = st.count ∧ countData st'.list + 1 = countData st.list) ∧
      (∃ st', delete key false st = some (Except.error (), st') ∧
        st'.count = st.count ∧ dataEntries st'.list = dataEntries st.list)) := by
  obtain ⟨hs, hp, hkb, hbk, hcnt, hsz⟩ := hinv
  obtain ⟨h1, hext, hiff, hfound, hnf⟩ := find_spec key st hk hs hp hkb hbk hsz
  obtain ⟨hsz', hcnt', hs', hp', hkb', hbk', hdata', hmem', hmb'⟩ := hext
  have hU : U64 = 18446744073709551616 := by norm_num [U64]
  constructor
  · intro hnone
    refine ⟨(find key st).2.2.2, ?_, hcnt', hdata'⟩
    rw [delete_valid key delOk st hk]
    have hfalse : (find key st).2.1 = false := by
      cases hfnd : (find key st).2.1 with
      | false => rfl
      | true =>
        obtain ⟨e, hge, hek, hemem⟩ := hfound hfnd
        rw [liveValue_of_mem key st.list hs e hemem hek] at hnone
        have hodd : e.1 % 2 = 1 := by
          rw [hek]
          exact tKey_odd key hk
        have hsome := (hp e hemem).1 hodd
        rw [hnone] at hsome
        cases hsome
    rw [hfalse]
    rfl
  · intro v hv
    have hmemk : tKey key ∈ keysOf st.list := by
      by_contra hnm
      rw [liveValue_of_not_mem key st.list hnm] at hv
      cases hv
    have hfnd : (find key st).2.1 = true := hiff.mpr hmemk
    obtain ⟨e, hge, hek, hemem⟩ := hfound hfnd
    have hlv := liveValue_of_mem key st.list hs e hemem hek
    rw [hv] at hlv
    obtain ⟨e1, e2⟩ := e
    simp only at hek hlv
    subst hlv
    have hodd : e1 % 2 = 1 := by
      rw [hek]
      exact tKey_odd key hk
    have hcd : countData st.list = countData (find key st).2.2.2.list :=
      (congrArg List.length hdata').symm
    have hpos1 : 1 ≤ countData (find key st).2.2.2.list := by
      have hmemd : (e1, some v) ∈ dataEntries (find key st).2.2.2.list :=
        List.mem_filter.mpr ⟨List.get?_mem hge, by simp [hodd]⟩
      unfold countData
      cases hdat : dataEntries (find key st).2.2.2.list with
      | nil =>
        rw [hdat] at hmemd
        cases hmemd
      | cons a rest => simp
    have hle := countData_le (find key st).2.2.2.list hs' hkb'
    have herase := countData_eraseAt_odd (find key st).2.2.1 (e1, some v)
      (find key st).2.2.2.list hge (by simpa using hodd)
    constructor
    · refine ⟨{ list := eraseAt (find key st).2.2.1 (find key st).2.2.2.list,
                buckets := (find key st).2.2.2.buckets,
                size := (find key st).2.2.2.size,
                count := ((find key st).2.2.2.count + (U64 - 1)) % U64 }, ?_, ?_, ?_⟩
      · rw [delete_valid key true st hk, hfnd, if_neg (by simp), if_pos rfl, hge]
      · show ((find key st).2.2.2.count + (U64 - 1)) % U64 + 1 = st.count
        rw [hU]
        omega
      · show countData (eraseAt (find key st).2.2.1 (find key st).2.2.2.list) + 1
            = countData st.list
        omega
    · refine ⟨(find key st).2.2.2, ?_, hcnt', hdata'⟩
      rw [delete_valid key false st hk, hfnd, if_neg (by simp)]
      rfl

/-- C8: every public operation asserts `key < 2 ^ 63` (the key's highest bit
is zero): for an invalid key all three operations panic immediately (`none`),
and for a valid key none of `lookup`, `insert`, `delete` panics — the internal
`unwrap` and the null-cursor dereference are unreachable — so the key-range
assertion is the only panic path of the three operations. -/
theorem C8_panic_paths (V : Type) (key : Nat) (v : V) (casOk delOk : Bool)
    (st : MapState V) (hinv : Inv st) :
    (key < 2 ^ 63 →
      (lookup key st).isSome = true ∧ (insert key v casOk st).isSome = true ∧
      (delete key delOk st).isSome = true) ∧
    (¬ key < 2 ^ 63 →
      lookup key st = none ∧ insert key v casOk st = none ∧
      delete key delOk st = none) := by
  obtain ⟨hs, hp, hkb, hbk, hcnt, hsz⟩ := hinv
  constructor
  · intro hk
    obtain ⟨h1, hext, hiff, hfound, hnf⟩ := find_spec key st hk hs hp hkb hbk hsz
    refine ⟨?_, ?_, ?_⟩
    · rw [lookup_valid key st hk]
      cases hfnd : (find key st).2.1 with
      | false => rfl
      | true =>
        obtain ⟨e, hge, hek, hemem⟩ := hfound hfnd
        rw [hge]
        rfl
    · rw [insert_valid key v casOk st hk]
      cases hfnd : (find key st).2.1 with
      | true => rfl
      | false =>
        cases casOk with
        | true => rfl
        | false => rfl
    · rw [delete_valid key delOk st hk]
      cases hfnd : (find key st).2.1 with
      | false => rfl
      | true =>
        obtain ⟨e, hge, hek, hemem⟩ := hfound hfnd
        obtain ⟨e1, e2⟩ := e
        cases delOk with
        | false => rfl
        | true =>
          rw [if_neg (by simp), if_pos rfl, hge]
          cases e2 with
          | some w => rfl
          | none => rfl
  · intro hk
    exact ⟨lookup_invalid key st hk, insert_invalid key v casOk st hk,
      delete_invalid key delOk st hk⟩

/-! ### Invariant preservation and the size invariant -/

section InvFacts

variable {V : Type}

theorem Inv_initState (V : Type) : Inv (initState V) := by
  refine ⟨List.Pairwise.nil, ?_, ?_, ?_, rfl, 1, Nat.le_refl 1, by norm_num, rfl⟩
  · intro e he
    cases he
  · intro e he
    cases he
  · intro i hi
    cases hi

theorem Inv_extends (st st' : MapState V) (hinv : Inv st) (hext : Extends st st') :
    Inv st' := by
  obtain ⟨hs, hp, hkb, hbk, hcnt, s, h1, h2, h3⟩ := hinv
  obtain ⟨hsz', hcnt', hs', hp', hkb', hbk', hdata', hmem', hmb'⟩ := hext
  refine ⟨hs', hp', hkb', hbk', ?_, s, h1, h2, ?_⟩
  · rw [hcnt', hcnt]
    exact (congrArg List.length hdata').symm
  · rw [hsz']
    exact h3

theorem Inv_lookup (key : Nat) (st st' : MapState V) (r : Option V)
    (hinv : Inv st) (h : lookup key st = some (r, st')) :
    Inv st' ∧ st'.size = st.size ∧ st'.count = st.count := by
  by_cases hk : key < 2 ^ 63
  · obtain ⟨hs, hp, hkb, hbk, hcnt, hsz⟩ := hinv
    obtain ⟨h1, hext, hiff, hfound, hnf⟩ := find_spec key st hk hs hp hkb hbk hsz
    rw [lookup_valid key st hk] at h
    have hst' : st' = (find key st).2.2.2 := by
      cases hfnd : (find key st).2.1 with
      | false =>
        rw [hfnd] at h
        exact (congrArg Prod.snd (Option.some.inj h)).symm
      | true =>
        rw [hfnd] at h
        obtain ⟨e, hge, hek, hemem⟩ := hfound hfnd
        rw [hge] at h
        exact (congrArg Prod.snd (Option.some.inj h)).symm
    subst hst'
    obtain ⟨hsz', hcnt', hs', hp', hkb', hbk', hdata', hmem', hmb'⟩ := hext
    exact ⟨Inv_extends st _ ⟨hs, hp, hkb, hbk, hcnt, hsz⟩
      ⟨hsz', hcnt', hs', hp', hkb', hbk', hdata', hmem', hmb'⟩, hsz', hcnt'⟩
  · rw [lookup_invalid key st hk] at h
    cases h

theorem Inv_delete (key : Nat) (delOk : Bool) (st st' : MapState V)
    (r : Except Unit V) (hinv : Inv st) (h : delete key delOk st = some (r, st')) :
    Inv st' ∧ st'.size = st.size := by
  by_cases hk : key < 2 ^ 63
  case neg =>
    rw [delete_invalid key delOk st hk] at h
    cases h
  case pos =>
  obtain ⟨hs, hp, hkb, hbk, hcnt, hsz⟩ := hinv
  obtain ⟨h1, hext, hiff, hfound, hnf⟩ := find_spec key st hk hs hp hkb hbk hsz
  obtain ⟨hsz', hcnt', hs', hp', hkb', hbk', hdata', hmem', hmb'⟩ := hext
  have hInvF : Inv (find key st).2.2.2 :=
    Inv_extends st _ ⟨hs, hp, hkb, hbk, hcnt, hsz⟩
      ⟨hsz', hcnt', hs', hp', hkb', hbk', hdata', hmem', hmb'⟩
  rw [delete_valid key delOk st hk] at h
  cases hfnd : (find key st).2.1 with
  | false =>
    rw [hfnd] at h
    have hst' : st' = (find key st).2.2.2 :=
      (congrArg Prod.snd (Option.some.inj h)).symm
    subst hst'
    exact ⟨hInvF, hsz'⟩
  | true =>
    rw [hfnd] at h
    obtain ⟨e, hge, hek, hemem⟩ := hfound hfnd
    obtain ⟨e1, e2⟩ := e
    simp only at hek
    subst hek
    have hodd : tKey key % 2 = 1 := tKey_odd key hk
    have hsome := (hp' _ (List.get?_mem hge)).1 (by simpa using hodd)
    obtain ⟨v, hv⟩ := Option.isSome_iff_exists.mp hsome
    simp only at hv
    subst hv
    cases delOk with
    | false =>
      have hst' : st' = (find key st).2.2.2 :=
        (congrArg Prod.snd (Option.some.inj h)).symm
      subst hst'
      exact ⟨hInvF, hsz'⟩
    | true =>
      rw [if_neg (by simp), if_pos rfl, hge] at h
      have hst' : st' =
          { list := eraseAt (find key st).2.2.1 (find key st).2.2.2.list,
            buckets := (find key st).2.2.2.buckets,
            size := (find key st).2.2.2.size,
            count := ((find key st).2.2.2.count + (U64 - 1)) % U64 } :=
        (congrArg Prod.snd (Option.some.inj h)).symm
      subst hst'
      have hU : U64 = 18446744073709551616 := by norm_num [U64]
      have hcd : countData st.list = countData (find key st).2.2.2.list :=
        (congrArg List.length hdata').symm
      have herase := countData_eraseAt_odd (find key st).2.2.1 (tKey key, some v)
        (find key st).2.2.2.list hge (by simpa using hodd)
      have hle := countData_le (find key st).2.2.2.list hs' hkb'
      have hcntF : (find key st).2.2.2.count = countData (find key st).2.2.2.list := by
        rw [hcnt', hcnt]
        exact hcd
      refine ⟨⟨sortedP_eraseAt _ _ hs', ?_, ?_, ?_, ?_, ?_⟩, hsz'⟩
      · intro e3 he3
        exact hp' e3 (mem_eraseAt _ e3 _ he3)
      · intro e3 he3
        exact hkb' e3 (mem_eraseAt _ e3 _ he3)
      · intro i hi
        obtain ⟨hi63, hik⟩ := hbk' i hi
        refine ⟨hi63, ?_⟩
        apply keysOf_mem_eraseAt _ (tKey key, some v) _ hge _ hik
        have heven := reverseBits64_mod_two i hi63
        simp only
        omega
      · show ((find key st).2.2.2.count + (U64 - 1)) % U64
            = countData (eraseAt (find key st).2.2.1 (find key st).2.2.2.list)
        rw [hU]
        omega
      · obtain ⟨s, hs1, hs62, hsize⟩ := hsz
        exact ⟨s, hs1, hs62, by rw [← hsize]; exact hsz'⟩

theorem Inv_insert (key : Nat) (v : V) (casOk : Bool) (st st' : MapState V)
    (r : Except V Unit) (hinv : Inv st) (h : insert key v casOk st = some (r, st')) :
    Inv st' ∧
      (st'.size = st.size ∨
        (st'.size = st.size * 2 ∧ r = Except.ok () ∧ st'.count = st.count + 1 ∧
          st.size * LOAD_FACTOR < st'.count)) := by
  by_cases hk : key < 2 ^ 63
  case neg =>
    rw [insert_invalid key v casOk st hk] at h
    cases h
  case pos =>
  obtain ⟨hs, hp, hkb, hbk, hcnt, hsz⟩ := hinv
  obtain ⟨h1, hext, hiff, hfound, hnf⟩ := find_spec key st hk hs hp hkb hbk hsz
  obtain ⟨hsz', hcnt', hs', hp', hkb', hbk', hdata', hmem', hmb'⟩ := hext
  have hInvF : Inv (find key st).2.2.2 :=
    Inv_extends st _ ⟨hs, hp, hkb, hbk, hcnt, hsz⟩
      ⟨hsz', hcnt', hs', hp', hkb', hbk', hdata', hmem', hmb'⟩
  rw [insert_valid key v casOk st hk] at h
  cases hfnd : (find key st).2.1 with
  | true =>
    rw [hfnd] at h
    have hst' : st' = (find key st).2.2.2 :=
      (congrArg Prod.snd (Option.some.inj h)).symm
    subst hst'
    exact ⟨hInvF, Or.inl hsz'⟩
  | false =>
    rw [hfnd] at h
    cases casOk with
    | false =>
      have hst' : st' = (find key st).2.2.2 :=
        (congrArg Prod.snd (Option.some.inj h)).symm
      subst hst'
      exact ⟨hInvF, Or.inl hsz'⟩
    | true =>
      obtain ⟨hposlen, hlo, hhi⟩ := hnf hfnd
      have hodd : tKey key % 2 = 1 := tKey_odd key hk
      have hsort2 : sortedP (insertAt (find key st).2.2.1 (tKey key, some v)
          (find key st).2.2.2.list) :=
        sortedP_insertAt _ _ _ hs' hlo hhi
      have hpar2 : parityOK (insertAt (find key st).2.2.1 (tKey key, some v)
          (find key st).2.2.2.list) := by
        intro e he
        rcases (mem_insertAt _ _ e _).mp he with h2 | h2
        · rw [h2]
          exact ⟨fun _ => rfl, fun h3 => by simp only at h3; omega⟩
        · exact hp' e h2
      have hkb2 : keysBound (insertAt (find key st).2.2.1 (tKey key, some v)
          (find key st).2.2.2.list) := by
        intro e he
        rcases (mem_insertAt _ _ e _).mp he with h2 | h2
        · rw [h2]
          exact tKey_lt key hk
        · exact hkb' e h2
      have hbk2 : ∀ i ∈ (find key st).2.2.2.buckets,
          i < 2 ^ 63 ∧ reverseBits64 i ∈ keysOf (insertAt (find key st).2.2.1
            (tKey key, some v) (find key st).2.2.2.list) := by
        intro i hi
        obtain ⟨hi63, hik⟩ := hbk' i hi
        obtain ⟨e, he, hek⟩ := mem_keysOf.mp hik
        exact ⟨hi63, mem_keysOf.mpr ⟨e, (mem_insertAt _ _ e _).mpr (Or.inr he), hek⟩⟩
      have hcnt2 := countData_insertAt_odd (find key st).2.2.1 (tKey key, some v)
        (find key st).2.2.2.list hodd
      have hle2 := countData_le _ hsort2 hkb2
      have hcntF : (find key st).2.2.2.count = countData (find key st).2.2.2.list := by
        rw [hcnt', hcnt]
        exact (congrArg List.length hdata').symm
      have hU : U64 = 18446744073709551616 := by norm_num [U64]
      have h263 : (2 : Nat) ^ 63 = 9223372036854775808 := by norm_num
      obtain ⟨s, hs1, hs62, hsize⟩ := hsz
      have hps : (2 : Nat) ^ s ≤ 2 ^ 62 := Nat.pow_le_pow_right (by norm_num) hs62
      have hps62 : (2 : Nat) ^ 62 = 4611686018427387904 := by norm_num
      have hLF : LOAD_FACTOR = 2 := rfl
      have hcntv : ((find key st).2.2.2.count + 1) % U64
          = (find key st).2.2.2.count + 1 := by
        rw [hU]
        omega
      have hmulLF : (st.size * LOAD_FACTOR) % U64 = st.size * LOAD_FACTOR := by
        rw [hLF, hsize, hU]
        omega
      have hmul2 : (st.size * 2) % U64 = st.size * 2 := by
        rw [hsize, hU]
        omega
      rw [h1, hsz', hcntv, hmulLF, hmul2] at h
      have hinner : (if st.size = st.size then st.size * 2 else st.size)
          = st.size * 2 := if_pos rfl
      rw [hinner] at h
      by_cases hcond : st.size * LOAD_FACTOR < (find key st).2.2.2.count + 1
      · rw [if_pos hcond] at h
        have hr : r = Except.ok () := (congrArg Prod.fst (Option.some.inj h)).symm
        have hst' : st' =
            { list := insertAt (find key st).2.2.1 (tKey key, some v)
                (find key st).2.2.2.list,
              buckets := (find key st).2.2.2.buckets,
              size := st.size * 2,
              count := (find key st).2.2.2.count + 1 } :=
          (congrArg Prod.snd (Option.some.inj h)).symm
        subst hst'
        have hslt : s < 62 := by
          by_contra hge62
          have hseq : s = 62 := by omega
          rw [hLF, hsize, hseq, hps62] at hcond
          rw [hcntF] at hcond
          have hcd2 : countData (find key st).2.2.2.list + 1
              ≤ countData (insertAt (find key st).2.2.1 (tKey key, some v)
                (find key st).2.2.2.list) := by
            omega
          omega
        refine ⟨⟨hsort2, hpar2, hkb2, hbk2, ?_, s + 1, by omega, by omega, ?_⟩, ?_⟩
        · show (find key st).2.2.2.count + 1 = countData (insertAt (find key st).2.2.1
            (tKey key, some v) (find key st).2.2.2.list)
          omega
        · show st.size * 2 = 2 ^ (s + 1)
          rw [hsize, pow_succ]
        · refine Or.inr ⟨rfl, hr, ?_, ?_⟩
          · show (find key st).2.2.2.count + 1 = st.count + 1
            omega
          · show st.size * LOAD_FACTOR < (find key st).2.2.2.count + 1
            exact hcond
      · rw [if_neg hcond] at h
        have hst' : st' =
            { list := insertAt (find key st).2.2.1 (tKey key, some v)
                (find key st).2.2.2.list,
              buckets := (find key st).2.2.2.buckets,
              size := st.size,
              count := (find key st).2.2.2.count + 1 } :=
          (congrArg Prod.snd (Option.some.inj h)).symm
        subst hst'
        refine ⟨⟨hsort2, hpar2, hkb2, hbk2, ?_, s, hs1, hs62, hsize⟩, Or.inl rfl⟩
        show (find key st).2.2.2.count + 1 = countData (insertAt (find key st).2.2.1
          (tKey key, some v) (find key st).2.2.2.list)
        omega

theorem Reachable_Inv (st : MapState V) (h : Reachable V st) : Inv st := by
  induction h with
  | init => exact Inv_initState V
  | lookupStep key r hr hstep ih => exact (Inv_lookup key _ _ r ih hstep).1
  | insertStep key v casOk r hr hstep ih => exact (Inv_insert key v casOk _ _ r ih hstep).1
  | deleteStep key delOk r hr hstep ih => exact (Inv_delete key delOk _ _ r ih hstep).1

end InvFacts

/-! ### Claim theorems (second group) and witnesses -/

/-- C7: `size` starts at 2 and is a power of two `≥ 2` in every reachable
state; `lookup` and `delete` never change it, and `insert` either leaves it
unchanged or doubles it — the sole doubling is the CAS from the observed size
to `size * 2`, taken only on a successful insert whose resulting count
exceeds `size * LOAD_FACTOR`. -/
theorem C7_size_doubling (V : Type) (st : MapState V) (h : Reachable V st) :
    (initState V).size = 2 ∧
    (∃ s, 1 ≤ s ∧ st.size = 2 ^ s) ∧
    (∀ key r st2, lookup key st = some (r, st2) → st2.size = st.size) ∧
    (∀ key delOk r st2, delete key delOk st = some (r, st2) → st2.size = st.size) ∧
    (∀ key v casOk r st2, insert key v casOk st = some (r, st2) →
      st2.size = st.size ∨
        (st2.size = st.size * 2 ∧ r = Except.ok () ∧ st2.count = st.count + 1 ∧
          st.size * LOAD_FACTOR < st2.count)) := by
  have hinv := Reachable_Inv st h
  refine ⟨rfl, ?_, ?_, ?_, ?_⟩
  · obtain ⟨_, _, _, _, _, s, hs1, _, hsize⟩ := hinv
    exact ⟨s, hs1, hsize⟩
  · intro key r st2 hstep
    exact (Inv_lookup key st st2 r hinv hstep).2.1
  · intro key delOk r st2 hstep
    exact (Inv_delete key delOk st st2 r hinv hstep).2
  · intro key v casOk r st2 hstep
    exact (Inv_insert key v casOk st st2 r hinv hstep).2

/-- Witness for C7 at the freshly constructed map. -/
theorem C7_witness :
    (initState String).size = 2 ∧
    (∃ s, 1 ≤ s ∧ (initState String).size = 2 ^ s) ∧
    (∀ key r st2, lookup key (initState String) = some (r, st2) →
      st2.size = (initState String).size) ∧
    (∀ key delOk r st2, delete key delOk (initState String) = some (r, st2) →
      st2.size = (initState String).size) ∧
    (∀ key v casOk r st2, insert key v casOk (initState String) = some (r, st2) →
      st2.size = (initState String).size ∨
        (st2.size = (initState String).size * 2 ∧ r = Except.ok () ∧
          st2.count = (initState String).count + 1 ∧
          (initState String).size * LOAD_FACTOR < st2.count)) :=
  C7_size_doubling String (initState String) Reachable.init

/-- C5 (amended): when `buckets[i]` is not yet materialized the sentinel
search starts at the list head if and only if the computed parent index
`get_parent i size` is `0`, which for `size = 2 ^ s > i` happens exactly when
`i` is `0` or a power of two (the code then uses the head instead of
resolving bucket 0); whenever the computed parent index is nonzero, the
parent bucket is materialized and both its sentinel and bucket `i`'s sentinel
are present in the list after the resolution. -/
theorem C5_amended_parent_start (V : Type) (s index fuel : Nat) (st : MapState V)
    (hs62 : s ≤ 62) (hfuel : index < fuel) (hidx : index < 2 ^ s)
    (hs : sortedP st.list) (hp : parityOK st.list) (hkb : keysBound st.list)
    (hbk : bucketsOK st) :
    (get_parent index (2 ^ s) = 0 ↔ index = 0 ∨ ∃ j, index = 2 ^ j) ∧
    (get_parent index (2 ^ s) ≠ 0 → index ∉ st.buckets →
      get_parent index (2 ^ s) ∈ (lookup_bucket fuel (2 ^ s) index st).2.buckets ∧
      reverseBits64 (get_parent index (2 ^ s))
        ∈ keysOf (lookup_bucket fuel (2 ^ s) index st).2.list ∧
      reverseBits64 index ∈ keysOf (lookup_bucket fuel (2 ^ s) index st).2.list) := by
  constructor
  · constructor
    · intro hpar
      by_cases h0 : index = 0
      · exact Or.inl h0
      · refine Or.inr ⟨Nat.log 2 index, ?_⟩
        rw [get_parent_pow_eq s index (by omega) hidx (by omega)] at hpar
        have h2 := Nat.pow_log_le_self 2 h0
        omega
    · intro hor
      rcases hor with h0 | ⟨j, hj⟩
      · rw [h0]
        exact get_parent_zero _
      · subst hj
        rw [get_parent_pow_eq s (2 ^ j) (Nat.two_pow_pos j) hidx (by omega),
          Nat.log_pow (by norm_num)]
        omega
  · intro hpar hmem
    have hidx63 : index < 2 ^ 63 := by
      have h1 : (2 : Nat) ^ s ≤ 2 ^ 62 := Nat.pow_le_pow_right (by norm_num) hs62
      have h2 : (2 : Nat) ^ 62 < 2 ^ 63 := by norm_num
      omega
    have h0 : 0 < index := by
      by_contra h
      have h1 : index = 0 := by omega
      rw [h1] at hpar
      exact hpar (get_parent_zero _)
    have hplt : get_parent index (2 ^ s) < index :=
      get_parent_lt s index h0 hidx (by omega)
    obtain ⟨f, rfl⟩ : ∃ f, fuel = f + 1 := ⟨fuel - 1, by omega⟩
    have hih := lookup_bucket_spec s hs62 f (get_parent index (2 ^ s)) st
      (by omega) (by omega) hs hp hkb hbk
    obtain ⟨hext, hpmem, w0, hw0⟩ := hih
    obtain ⟨hsz0, hcnt0, hs0, hp0, hkb0, hbk0, hdata0, hmeml0, hmemb0⟩ := hext
    rw [lookup_bucket_new f (2 ^ s) index st
      (lookup_bucket f (2 ^ s) (get_parent index (2 ^ s)) st) hmem
      (by rw [if_neg hpar])]
    have hstart : ∀ i e,
        i < (lookup_bucket f (2 ^ s) (get_parent index (2 ^ s)) st).1 →
        (lookup_bucket f (2 ^ s) (get_parent index (2 ^ s)) st).2.list.get? i
          = some e → e.1 < reverseBits64 index := by
      intro i e hi hg
      obtain ⟨hd1, hd2⟩ := get_parent_decomp s index h0 hidx (by omega)
      have hL : Nat.log 2 index ≤ 63 := by
        have h1 := Nat.pow_log_le_self 2 (by omega : index ≠ 0)
        by_contra hL
        have h2 : (2 : Nat) ^ 64 ≤ 2 ^ Nat.log 2 index :=
          Nat.pow_le_pow_right (by norm_num) (by omega)
        have h4 : (2 : Nat) ^ 63 < 2 ^ 64 := by norm_num
        omega
      have hrev : reverseBits64 (get_parent index (2 ^ s) + 2 ^ Nat.log 2 index)
          = reverseBits64 (get_parent index (2 ^ s)) + 2 ^ (63 - Nat.log 2 index) :=
        reverseBits64_add_pow _ _ hd2 hL
      rw [hd1] at hrev
      have h5 := Nat.two_pow_pos (63 - Nat.log 2 index)
      have h6 := sortedP_get_lt _ hs0 i _ e
        (reverseBits64 (get_parent index (2 ^ s)), w0) hi hg hw0
      omega
    have hsp := sentinel_phase_spec (reverseBits64 index)
      (lookup_bucket f (2 ^ s) (get_parent index (2 ^ s)) st).1
      (lookup_bucket f (2 ^ s) (get_parent index (2 ^ s)) st).2
      (reverseBits64_mod_two index hidx63) (reverseBits64_lt index)
      hs0 hp0 hkb0 (by
        have := (List.get?_eq_some.mp hw0).1
        omega) hstart
    obtain ⟨gsz, gcnt, gbk, gs2, gp2, gkb2, gdata2, gmem2, w, hw⟩ := hsp
    refine ⟨?_, ?_, ?_⟩
    · apply List.mem_cons_of_mem
      rw [gbk]
      exact hpmem
    · apply mem_keysOf.mpr
      refine ⟨(reverseBits64 (get_parent index (2 ^ s)), w0), ?_, rfl⟩
      exact gmem2 _ (List.get?_mem hw0)
    · exact mem_keysOf.mpr ⟨(reverseBits64 index, w), List.get?_mem hw, rfl⟩

/-- Witness for the amended C5 at `i = 3`, `size = 2 ^ 2`, on a fresh map:
`get_parent 3 4 = 1 ≠ 0`, and resolving bucket 3 materializes bucket 1 and
both sentinels. -/
theorem C5_amended_witness :
    (get_parent 3 (2 ^ 2) = 0 ↔ 3 = 0 ∨ ∃ j, (3 : Nat) = 2 ^ j) ∧
    (get_parent 3 (2 ^ 2) ≠ 0 → 3 ∉ (initState Nat).buckets →
      get_parent 3 (2 ^ 2) ∈ (lookup_bucket 4 (2 ^ 2) 3 (initState Nat)).2.buckets ∧
      reverseBits64 (get_parent 3 (2 ^ 2))
        ∈ keysOf (lookup_bucket 4 (2 ^ 2) 3 (initState Nat)).2.list ∧
      reverseBits64 3 ∈ keysOf (lookup_bucket 4 (2 ^ 2) 3 (initState Nat)).2.list) :=
  C5_amended_parent_start Nat 2 3 4 (initState Nat) (by norm_num) (by norm_num)
    (by norm_num) (Inv_initState Nat).1 (Inv_initState Nat).2.1
    (Inv_initState Nat).2.2.1 (Inv_initState Nat).2.2.2.1

/-- Witness for C1: a failed CAS on a fresh map returns the value unconsumed. -/
theorem C1_witness :
    ∃ st', insert 5 "a" false (initState String) = some (Except.error "a", st') ∧
      st'.size = (initState String).size ∧ st'.count = (initState String).count ∧
      dataEntries st'.list = dataEntries (initState String).list :=
  C1_insert_err String 5 "a" false (initState String) (by norm_num)
    (Inv_initState String) (Or.inr rfl)

/-- The state after `insert(5, "a")` on a fresh map satisfies the invariant. -/
theorem Inv_c4_st1 : Inv c4_st1 :=
  (Inv_insert 5 "a" true (initState String) c4_st1 (Except.ok ())
    (Inv_initState String) rfl).1

/-- Witness for C2 at the state holding `5 ↦ "a"`. -/
theorem C2_witness :
    (liveValue 5 c4_st1.list = none →
      ∃ st', delete 5 true c4_st1 = some (Except.error (), st') ∧
        st'.count = c4_st1.count ∧ dataEntries st'.list = dataEntries c4_st1.list) ∧
    (∀ v : String, liveValue 5 c4_st1.list = some v →
      (∃ st', delete 5 true c4_st1 = some (Except.ok v, st') ∧
        st'.count + 1 = c4_st1.count ∧
        countData st'.list + 1 = countData c4_st1.list) ∧
      (∃ st', delete 5 false c4_st1 = some (Except.error (), st') ∧
        st'.count = c4_st1.count ∧
        dataEntries st'.list = dataEntries c4_st1.list)) :=
  C2_delete_spec String 5 true c4_st1 (by norm_num) Inv_c4_st1

/-- Witness for C3 on a fresh map. -/
theorem C3_witness :
    ∃ st', lookup 5 (initState String)
        = some (liveValue 5 (initState String).list, st') ∧
      st'.size = (initState String).size ∧ st'.count = (initState String).count ∧
      dataEntries st'.list = dataEntries (initState String).list :=
  C3_lookup_spec String 5 (initState String) (by norm_num) (Inv_initState String)

/-- Witness for C8 on a fresh map. -/
theorem C8_witness :
    ((5 : Nat) < 2 ^ 63 →
      (lookup 5 (initState String)).isSome = true ∧
      (insert 5 "a" true (initState String)).isSome = true ∧
      (delete 5 true (initState String)).isSome = true) ∧
    (¬ (5 : Nat) < 2 ^ 63 →
      lookup 5 (initState String) = none ∧
      insert 5 "a" true (initState String) = none ∧
      delete 5 true (initState String) = none) :=
  C8_panic_paths String 5 "a" true true (initState String) (Inv_initState String)

/-- Witness for C9 at the state holding `5 ↦ "a"`: `find 5` reports found at
cursor position 1, a data node with a `some` value. -/
theorem C9_witness :
    ∃ v : String, c4_st1.list.get? 1 = some (tKey 5, some v) :=
  C9_found_is_data String 5 c4_st1 (by norm_num) Inv_c4_st1 2 1 c4_st1 rfl

end SplitOrdered
